import Mathlib

/-!
Shallow embedding of the `collector` package of agviu/investrends
(src/collector/collector.go) and proofs about its specification.

Conventions of the embedding:
* Go strings are Lean `String`s; `strings.Contains` / `strings.Cut` are
  re-implemented on `List Char`.
* The Go `map[string]...` time-series is an association list.
* `json.Unmarshal` and `strconv.ParseFloat` are standard-library calls, not
  code of this repository; they enter the model as explicit function
  parameters (`decode`, `parseFloat`).  `parseFloat`'s result type is kept
  abstract (a type parameter `α`), since the collector stores the parsed
  value unchanged and never computes with it.
* `time.Parse "2006-01-02"`, `Weekday`, `AddDate` and `Format` are modelled
  by an executable proleptic-Gregorian calendar on day numbers
  (days since 1970-01-01, a Thursday; Go's `Weekday` has Sunday = 0).
* The SQLite tables are lists of rows; `INSERT OR IGNORE` under
  `UNIQUE(symbol, timestamp)` inserts only when no row with the same key
  exists.  Driver-level failures are abstracted as boolean oracles.
* Calling `.Error()` on a Go `error` value is total only on non-nil values;
  on `nil` it is a nil-pointer dereference, i.e. a runtime panic.  The model
  makes this explicit (`goErrorCall`), because `Run` and `RunGoRoutines`
  reach exactly such a call in their `default` classification branch.
-/

namespace Collector

/-- Classification outcomes of an API response, mirroring the `iota`
constants `allGood, limitReached, missingDate, missingSymbol, jsonBroken`
at the top of collector.go. -/
inductive Status where
  | allGood
  | limitReached
  | missingDate
  | missingSymbol
  | jsonBroken
deriving DecidableEq, Repr

/-- Numeric value of each classification constant (the Go constants are
`iota`-numbered integers in this order). -/
def Status.code : Status → Nat
  | .allGood => 0
  | .limitReached => 1
  | .missingDate => 2
  | .missingSymbol => 3
  | .jsonBroken => 4

/-- Raw API payload shape (struct `CryptoDataRaw`): the "6. Last Refreshed"
metadata string and the weekly time series, a map from date strings to the
"4a. close (EUR)" closing-value string.  The Go map is modelled as an
association list. -/
structure CryptoDataRaw where
  lastRefreshed : String
  timeSeries : List (String × String)
deriving DecidableEq, Repr

/-- Zero value of `CryptoDataRaw` (`var cryptoData CryptoDataRaw`). -/
def emptyRaw : CryptoDataRaw := ⟨"", []⟩

/-- Curated data point (struct `CryptoDataCurated`): symbol, date and the
value produced by `strconv.ParseFloat`, kept abstract as `α`. -/
structure CryptoDataCurated (α : Type) where
  symbol : String
  date : String
  value : α
deriving DecidableEq, Repr

/-- Go map lookup `cdr.TimeSeries[key]` on the association-list model. -/
def tsLookup (ts : List (String × String)) (key : String) : Option String :=
  match ts with
  | [] => none
  | (k, v) :: rest => if k = key then some v else tsLookup rest key

/-- Whether `p` is an initial segment of `l` (helper for substring search). -/
def startsWithChars : List Char → List Char → Bool
  | [], _ => true
  | _ :: _, [] => false
  | a :: as, b :: bs => a == b && startsWithChars as bs

/-- Whether `p` occurs as a contiguous run inside `l` (helper for
`strings.Contains`). -/
def hasSubChars (p : List Char) : List Char → Bool
  | [] => startsWithChars p []
  | c :: ls => startsWithChars p (c :: ls) || hasSubChars p ls

/-- Model of Go `strings.Contains s sub`. -/
def strContains (s sub : String) : Bool := hasSubChars sub.data s.data

/-- Model of `strings.Cut(s, " ")`: the part before the first space, when a
space occurs (`ok = true`); `none` models `ok = false`. -/
def takeBeforeSpace : List Char → Option (List Char)
  | [] => none
  | c :: cs => if c = ' ' then some [] else Option.map (fun l => c :: l) (takeBeforeSpace cs)

/-- Model of `date, _, ok := strings.Cut(lastRaw, " ")` returning the date
portion. -/
def cutSpace (s : String) : Option String :=
  Option.map (fun l => String.mk l) (takeBeforeSpace s.data)

/-- Literal marker sniffed for an invalid symbol. -/
def invalidMarker : String := "Invalid API call."

/-- Literal marker sniffed for quota exhaustion. -/
def limitMarker : String := "You have reached the 100 requests/day limit"

/-- Model of `GetRawValuesFromResponse` (collector.go lines 123-140):
textual sniffing for the two markers, in order, then the structured decode.
`decode` stands for `json.Unmarshal` into `CryptoDataRaw`; `none` is a
decode error. -/
def GetRawValuesFromResponse (decode : String → Option CryptoDataRaw)
    (response : String) : CryptoDataRaw × Status :=
  if strContains response invalidMarker then
    (emptyRaw, .missingSymbol)
  else if strContains response limitMarker then
    (emptyRaw, .limitReached)
  else
    match decode response with
    | none => (emptyRaw, .jsonBroken)
    | some cd => (cd, .allGood)

/-! Calendar model: proleptic Gregorian calendar on day numbers
(days since 1970-01-01).  These model the parts of Go's `time` package the
extractor uses with the layout `"2006-01-02"`: parsing, `Weekday`
(Sunday = 0), `AddDate(0, 0, k)` and `Format`. -/

/-- Days from civil date (y, m, d) to days since 1970-01-01.  On `Int`, `/`
and `%` are `Int.ediv` and `Int.emod`: floor division and a nonnegative
remainder for the positive divisors used here. -/
def daysFromCivil (y m d : Int) : Int :=
  let yy := if m ≤ 2 then y - 1 else y
  let era := yy / 400
  let yoe := yy - era * 400
  let mp := (m + 9) % 12
  let doy := (153 * mp + 2) / 5 + d - 1
  let doe := yoe * 365 + yoe / 4 - yoe / 100 + doy
  era * 146097 + doe - 719468

/-- Civil date (y, m, d) from days since 1970-01-01. -/
def civilFromDays (z : Int) : Int × Int × Int :=
  let zz := z + 719468
  let era := zz / 146097
  let doe := zz - era * 146097
  let yoe := (doe - doe / 1460 + doe / 36524 - doe / 146096) / 365
  let y := yoe + era * 400
  let doy := doe - (365 * yoe + yoe / 4 - yoe / 100)
  let mp := (5 * doy + 2) / 153
  let d := doy - (153 * mp + 2) / 5 + 1
  let m := if mp < 10 then mp + 3 else mp - 9
  (if m ≤ 2 then y + 1 else y, m, d)

/-- Go `t.Weekday()` as an integer, Sunday = 0 (1970-01-01 was a Thursday). -/
def weekdayOf (z : Int) : Int := (z + 4) % 7

/-- Leap-year test of the Gregorian calendar. -/
def isLeapYear (y : Int) : Bool :=
  y % 4 == 0 && (y % 100 != 0 || y % 400 == 0)

/-- Number of days of month `m` in year `y`. -/
def daysInMonth (y m : Int) : Int :=
  if m = 2 then (if isLeapYear y then 29 else 28)
  else if m = 4 ∨ m = 6 ∨ m = 9 ∨ m = 11 then 30
  else 31

/-- Numeric value of a decimal digit character. -/
def digitVal (c : Char) : Option Nat :=
  if '0' ≤ c ∧ c ≤ '9' then some (c.toNat - 48) else none

/-- Model of `time.Parse("2006-01-02", s)`: exactly ten characters
`dddd-dd-dd`, with month and day range-checked.  Returns the civil date. -/
def parseDate (s : String) : Option (Int × Int × Int) :=
  match s.data with
  | [y1, y2, y3, y4, s1, m1, m2, s2, d1, d2] =>
    if s1 = '-' ∧ s2 = '-' then
      match digitVal y1, digitVal y2, digitVal y3, digitVal y4,
            digitVal m1, digitVal m2, digitVal d1, digitVal d2 with
      | some a, some b, some c, some e, some f, some g, some h, some i =>
        let y : Int := Int.ofNat (a * 1000 + b * 100 + c * 10 + e)
        let m : Int := Int.ofNat (f * 10 + g)
        let d : Int := Int.ofNat (h * 10 + i)
        if 1 ≤ m ∧ m ≤ 12 ∧ 1 ≤ d ∧ d ≤ daysInMonth y m then
          some (y, m, d)
        else none
      | _, _, _, _, _, _, _, _ => none
    else none
  | _ => none

/-- Decimal rendering of `n` left-padded with zeros to width `w`. -/
def padNum (w : Nat) (n : Nat) : String :=
  let s := toString n
  String.mk (List.replicate (w - s.length) '0') ++ s

/-- Model of `t.Format("2006-01-02")` on a day number. -/
def formatDate (z : Int) : String :=
  let c := civilFromDays z
  let y := c.1
  let m := c.2.1
  let d := c.2.2
  let ys := if y < 0 then "-" ++ padNum 4 (Int.toNat (-y)) else padNum 4 (Int.toNat y)
  ys ++ "-" ++ padNum 2 (Int.toNat m) ++ "-" ++ padNum 2 (Int.toNat d)

example : daysFromCivil 1970 1 1 = 0 := by decide
example : weekdayOf (daysFromCivil 2023 6 18) = 0 := by decide
example : formatDate (daysFromCivil 2023 6 18 - 7 * 24) = "2023-01-01" := by decide
example : parseDate "2023-06-18" = some (2023, 6, 18) := by decide
example : cutSpace "2023-06-18 00:00:00" = some "2023-06-18" := by decide
example : strContains "abc Invalid API call. xx" invalidMarker = true := by decide

/-- Loop of `ExtractDataFromValues` (collector.go lines 349-371), by
recursion on the remaining iteration count (`i` runs from 1 while `i ≤ n`,
so `n` iterations in total).  Faithfully to the source, when a date is
absent from the series only `missing` and `i` advance — the `continue`
skips the `t = t.AddDate(0, 0, -7)` step, so the same date is probed
again on the next iteration. -/
def extractLoop (parseFloat : String → Option α) (ts : List (String × String))
    (symbol : String) :
    Nat → Int → Nat → List (CryptoDataCurated α) →
    List (CryptoDataCurated α) × Nat × Option String
  | 0, _, missing, acc => (acc, missing, none)
  | k + 1, t, missing, acc =>
    match tsLookup ts (formatDate t) with
    | none => extractLoop parseFloat ts symbol k t (missing + 1) acc
    | some close =>
      match parseFloat close with
      | none => (acc, missing, some "unable to get the float value from the string")
      | some v =>
        extractLoop parseFloat ts symbol k (t - 7) missing
          (acc ++ [⟨symbol, formatDate t, v⟩])

/-- Model of `ExtractDataFromValues` (collector.go lines 328-374).  Returns
the curated points, the Go value `n - missing` as an `Int`, and the error.
`parseFloat` models `strconv.ParseFloat(..., 64)`; the parsed value is
stored unchanged. -/
def ExtractDataFromValues (parseFloat : String → Option α) (cdr : CryptoDataRaw)
    (n : Nat) (symbol : String) :
    List (CryptoDataCurated α) × Int × Option String :=
  match cutSpace cdr.lastRefreshed with
  | none => ([], 0, some "unable to get last refreshed date from raw data")
  | some date =>
    match parseDate date with
    | none => ([], 0, some "unable to convert date from string to time.Time")
    | some ymd =>
      let tD := daysFromCivil ymd.1 ymd.2.1 ymd.2.2
      let t := tD - weekdayOf tD
      let r := extractLoop parseFloat cdr.timeSeries symbol n t 0 []
      (r.1, (n : Int) - (r.2.1 : Int), r.2.2)

/-- Row of the `crypto_prices` table. -/
structure PriceRow (α : Type) where
  symbol : String
  timestamp : String
  value : α
deriving DecidableEq, Repr

/-- Key comparison backing `UNIQUE(symbol, timestamp)`. -/
def rowKeyMatches (r : PriceRow α) (s t : String) : Bool :=
  r.symbol == s && r.timestamp == t

/-- Effect of `INSERT OR IGNORE INTO crypto_prices(symbol, timestamp, value)`
under the `UNIQUE(symbol, timestamp)` constraint (schema in `setUpDb`,
lines 303-310): the row is appended only when no row with the same key
exists; a conflicting insert is silently ignored and is not an error. -/
def insertOrIgnore (rows : List (PriceRow α)) (p : CryptoDataCurated α) :
    List (PriceRow α) :=
  if rows.any (fun r => rowKeyMatches r p.symbol p.date) then rows
  else rows ++ [⟨p.symbol, p.date, p.value⟩]

/-- Insert loop of `StoreData` over the transaction state: `none` models a
driver failure of `stmt.Exec` (oracle `execFail`), after which `StoreData`
returns without committing. -/
def storeLoop (execFail : CryptoDataCurated α → Bool) :
    List (PriceRow α) → List (CryptoDataCurated α) → Option (List (PriceRow α))
  | tx, [] => some tx
  | tx, p :: rest =>
    if execFail p then none else storeLoop execFail (insertOrIgnore tx p) rest

/-- Model of `StoreData` (collector.go lines 377-407).  The inserts build a
transaction-local state from the committed rows `db`; only `tx.Commit`
publishes it.  On an insert failure the function returns the error without
committing (there is no explicit rollback in the source; the uncommitted
transaction is discarded when the deferred `db.Close()` runs), so the
committed state is unchanged.  `commitFail` models a failing `tx.Commit`.
(A failing `db.Begin` or `tx.Prepare` is only logged in the source and the
nil handle would panic at its first use; the model assumes both succeed,
as they do on a healthy connection.) -/
def StoreData (execFail : CryptoDataCurated α → Bool) (commitFail : Bool)
    (db : List (PriceRow α)) (data : List (CryptoDataCurated α)) :
    List (PriceRow α) × Option String :=
  match storeLoop execFail db data with
  | none => (db, some "Failed to insert data into table")
  | some tx =>
    if commitFail then (db, some "Failed to commit transaction") else (tx, none)

/-- Number of committed rows for a `(symbol, timestamp)` key. -/
def countKey (rows : List (PriceRow α)) (s t : String) : Nat :=
  (rows.filter (fun r => rowKeyMatches r s t)).length

/-- Core of `IsBlacklisted` (collector.go lines 471-481): the result of the
`SELECT COUNT(*)` query is either an error or a count; on error the
function returns `false`. -/
def IsBlacklistedRes (q : Except String Nat) : Bool :=
  match q with
  | .error _ => false
  | .ok count => decide (0 < count)

/-- The blacklist membership query against the table state; the oracle
`blErr` models a failing `QueryRow(...).Scan`. -/
def blQuery (blErr : String → Bool) (table : List String) (symbol : String) :
    Except String Nat :=
  if blErr symbol then .error "query failed" else .ok (table.count symbol)

/-- Model of `IsBlacklisted` on the list-backed blacklist table. -/
def IsBlacklisted (blErr : String → Bool) (table : List String) (symbol : String) :
    Bool :=
  IsBlacklistedRes (blQuery blErr table symbol)

/-- Model of `AddToBlacklist` (`INSERT OR REPLACE` on a `UNIQUE` symbol
column, lines 456-469): the table keeps at most one row per symbol. -/
def AddToBlacklist (table : List String) (symbol : String) : List String :=
  if symbol ∈ table then table else table ++ [symbol]

/-- Go `e.Error()`: defined on a non-nil error value; on a nil value it is a
nil-pointer dereference, i.e. a runtime panic, modelled as `.error ()`. -/
def goErrorCall (e : Option String) : Except Unit String :=
  match e with
  | none => .error ()
  | some m => .ok m

/-- Observable actions of an orchestrator run. -/
inductive Event (α : Type) where
  | writeIdx (i : Nat)
  | sleepMinute
  | sleepDay
  | fetch (url : String)
  | blacklistAdd (symbol : String)
  | store (data : List (CryptoDataCurated α))
deriving DecidableEq, Repr

/-- How a run ends.  `completed resetOk`: the loop finished the whole list
and then wrote checkpoint 0 (`resetOk` is whether that final write
succeeded; on failure its error is returned).  `limitStop`: the
non-production limit-reached return `(processed, nil)`.  `fatal`: a
transport error or a checkpoint write failure, returned to the caller.
`panicked`: the run died from the nil-error dereference in the `default`
classification branch. -/
inductive RunOutcome where
  | completed (resetOk : Bool)
  | limitStop
  | fatal
  | panicked
deriving DecidableEq, Repr

/-- External collaborators of the orchestrators, collected as oracles:
`decode` for `json.Unmarshal`, `parseFloat` for `strconv.ParseFloat`,
`getData` for the HTTP fetch (transport error or response bytes), `urlOf`
for `GetURLFromSymbol`, `blErr` for blacklist query failures, `execFail` /
`commitFail` for SQLite write failures, `writeOk` for `writeIndexToFile`
success, and the `production` flag. -/
structure RunEnv (α : Type) where
  decode : String → Option CryptoDataRaw
  parseFloat : String → Option α
  getData : String → Except String String
  urlOf : String → String
  blErr : String → Bool
  production : Bool
  execFail : CryptoDataCurated α → Bool
  commitFail : Bool
  writeOk : Nat → Bool

/-- Mutable state threaded through the `Run` loop: the `processed` counter,
the blacklist table and the committed price rows. -/
structure LoopState (α : Type) where
  processed : Nat
  bl : List String
  db : List (PriceRow α)
deriving Repr

/-- Control outcome of one loop iteration: go on with the next index, or
leave the loop with the given outcome. -/
inductive StepCtl where
  | next
  | stop (oc : RunOutcome)
deriving DecidableEq, Repr

/-- One iteration of the `Run` loop at index `i` (collector.go lines
174-247), in source order: write the checkpoint (failure returns the
error); skip the header row; skip a blacklisted symbol; pacing pause every
`n`-th processed symbol (`processed % n` with `n = 0` is a Go runtime
panic); fetch (transport error returns it); classify; `missingSymbol`
blacklists and continues; `limitReached` sleeps a day and continues in
production, otherwise returns normally; the `default` branch evaluates
`err.Error()` although `err` is necessarily `nil` at that point (the
transport-error case returned at line 206), which panics; `allGood`
extracts (an extraction error skips the symbol) and stores (a store error
skips the symbol). -/
def runStep (env : RunEnv α) (records : List (List String)) (n : Nat) (i : Nat)
    (st : LoopState α) : List (Event α) × LoopState α × StepCtl :=
  if env.writeOk i = false then ([], st, .stop .fatal)
  else if i = 0 then ([.writeIdx i], st, .next)
  else
    let symbol := (records.getD i []).headD ""
    if IsBlacklisted env.blErr st.bl symbol then ([.writeIdx i], st, .next)
    else if 0 < st.processed ∧ n = 0 then ([.writeIdx i], st, .stop .panicked)
    else
      let evs1 : List (Event α) :=
        if 0 < st.processed ∧ st.processed % n = 0 then [.writeIdx i, .sleepMinute]
        else [.writeIdx i]
      let processed := st.processed + 1
      let url := env.urlOf symbol
      match env.getData url with
      | .error _ => (evs1 ++ [.fetch url], ⟨processed, st.bl, st.db⟩, .stop .fatal)
      | .ok response =>
        let rs := GetRawValuesFromResponse env.decode response
        match rs.2 with
        | .missingSymbol =>
          (evs1 ++ [.fetch url, .blacklistAdd symbol],
            ⟨processed, AddToBlacklist st.bl symbol, st.db⟩, .next)
        | .limitReached =>
          if env.production then
            (evs1 ++ [.fetch url, .sleepDay], ⟨processed, st.bl, st.db⟩, .next)
          else
            (evs1 ++ [.fetch url], ⟨processed, st.bl, st.db⟩, .stop .limitStop)
        | .allGood =>
          let er := ExtractDataFromValues env.parseFloat rs.1 25 symbol
          match er.2.2 with
          | some _ => (evs1 ++ [.fetch url], ⟨processed, st.bl, st.db⟩, .next)
          | none =>
            let sr := StoreData env.execFail env.commitFail st.db er.1
            (evs1 ++ [.fetch url, .store er.1], ⟨processed, st.bl, sr.1⟩, .next)
        | _ =>
          match goErrorCall none with
          | .error _ => (evs1 ++ [.fetch url], ⟨processed, st.bl, st.db⟩, .stop .panicked)
          | .ok _ => (evs1 ++ [.fetch url], ⟨processed, st.bl, st.db⟩, .next)

/-- The `Run` loop from index `i` with `fuel` remaining iterations (the
entry point passes exactly `records.length - index`, so fuel exhaustion and
the loop condition `i < len(records)` coincide).  After the loop, the
checkpoint is reset to 0 (lines 249-251); a failing final write returns its
error. -/
def runLoop (env : RunEnv α) (records : List (List String)) (n : Nat) :
    Nat → Nat → LoopState α → List (Event α) × Nat × RunOutcome
  | 0, _, st =>
    if env.writeOk 0 then ([Event.writeIdx 0], st.processed, .completed true)
    else ([], st.processed, .completed false)
  | fuel + 1, i, st =>
    match runStep env records n i st with
    | (evs, st', .next) =>
      let r := runLoop env records n fuel (i + 1) st'
      (evs ++ r.1, r.2)
    | (evs, st', .stop oc) => (evs, st'.processed, oc)

/-- Model of `Run` (collector.go lines 149-252), starting after the
fail-fast setup phase (`ReadCurrencyList`, `setUpDb`, the optional
blacklist clear, and the checkpoint read, whose absence defaults `index`
to 0).  Returns the event trace, the processed count and the outcome. -/
def Run (env : RunEnv α) (records : List (List String)) (n : Nat) (index : Nat)
    (bl : List String) (db : List (PriceRow α)) :
    List (Event α) × Nat × RunOutcome :=
  runLoop env records n (records.length - index) index ⟨0, bl, db⟩

/-- Checkpoint values written during a trace, in order. -/
def ckWrites (tr : List (Event α)) : List Nat :=
  tr.filterMap (fun e =>
    match e with
    | .writeIdx i => some i
    | _ => none)

/-- Whether an event is a fetch. -/
def isFetchEv : Event α → Bool
  | .fetch _ => true
  | _ => false

/-- Value sent on `returnCh` by a worker goroutine (the local `returnData`
struct of `RunGoRoutines`). -/
structure ReturnData (α : Type) where
  curatedData : List (CryptoDataCurated α)
  err : Option String
  symbol : String
  limitReached : Bool
deriving DecidableEq, Repr

/-- Result of one worker goroutine of `RunGoRoutines` (collector.go lines
549-615): its events, the value sent on the channel (if any), whether it
panicked, and whether it added its symbol to the blacklist. -/
structure WorkerOut (α : Type) where
  events : List (Event α)
  sent : Option (ReturnData α)
  panicked : Bool
  addedBl : Bool
deriving Repr

/-- One worker goroutine body: fetch (a transport error is sent back on the
channel); classify; `missingSymbol` writes the blacklist from inside the
worker and sends nothing; `limitReached` sleeps a day and sends nothing in
production, otherwise sends a value flagged `limitReached`; the `default`
branch evaluates `err.Error()` with `err` nil and panics (same slip as in
`Run`); `allGood` extracts and sends the data or the extraction error. -/
def workerRun (env : RunEnv α) (symbol : String) : WorkerOut α :=
  let url := env.urlOf symbol
  match env.getData url with
  | .error e => ⟨[.fetch url], some ⟨[], some e, symbol, false⟩, false, false⟩
  | .ok response =>
    let rs := GetRawValuesFromResponse env.decode response
    match rs.2 with
    | .missingSymbol => ⟨[.fetch url, .blacklistAdd symbol], none, false, true⟩
    | .limitReached =>
      if env.production then ⟨[.fetch url, .sleepDay], none, false, false⟩
      else ⟨[.fetch url], some ⟨[], none, symbol, true⟩, false, false⟩
    | .allGood =>
      let er := ExtractDataFromValues env.parseFloat rs.1 25 symbol
      match er.2.2 with
      | some e => ⟨[.fetch url], some ⟨er.1, some e, symbol, false⟩, false, false⟩
      | none => ⟨[.fetch url], some ⟨er.1, none, symbol, false⟩, false, false⟩
    | _ =>
      match goErrorCall none with
      | .error _ => ⟨[.fetch url], none, true, false⟩
      | .ok _ => ⟨[.fetch url], none, false, false⟩

/-- Combined outcome of the fan-out of one batch. -/
structure BatchOut (α : Type) where
  events : List (Event α)
  values : List (ReturnData α)
  panicked : Bool
  bl : List String
deriving Repr

/-- Fan-out of the batch's workers.  The skeleton records worker events in
list order (the real scheduler may interleave them; every property proved
about this skeleton is insensitive to the order of events within one
batch, and the scheduling-sensitive claim is handled by the
nondeterministic model `BStep` below).  A panicking worker kills the whole
process. -/
def batchWorkers (env : RunEnv α) : List String → List String → BatchOut α
  | bl, [] => ⟨[], [], false, bl⟩
  | bl, s :: rest =>
    let w := workerRun env s
    if w.panicked then ⟨w.events, [], true, bl⟩
    else
      let bl' := if w.addedBl then AddToBlacklist bl s else bl
      let r := batchWorkers env bl' rest
      ⟨w.events ++ r.events,
        (match w.sent with
         | some v => v :: r.values
         | none => r.values),
        r.panicked, r.bl⟩

/-- Drain of `returnCh` (collector.go lines 624-638): each received value is
logged if it carries an error, a `limitReached` value makes the whole run
return `(processed, nil)` at once, and otherwise the value's curated data
is stored (a store failure is logged and the drain continues).  Returns the
drain events, the committed rows and whether the limit-stop return was
taken. -/
def drainValues (env : RunEnv α) :
    List (ReturnData α) → List (PriceRow α) →
    List (Event α) × List (PriceRow α) × Bool
  | [], db => ([], db, false)
  | v :: rest, db =>
    if v.limitReached then ([], db, true)
    else
      let sr := StoreData env.execFail env.commitFail db v.curatedData
      let r := drainValues env rest sr.1
      (Event.store v.curatedData :: r.1, r.2)

/-- Control outcome of one batch iteration of `RunGoRoutines`. -/
inductive GoCtl (α : Type) where
  | next (bl : List String) (db : List (PriceRow α)) (brk : Bool)
  | stop (oc : RunOutcome)

/-- One batch iteration of `RunGoRoutines` at start index `i` (collector.go
lines 529-644): write the checkpoint (failure returns the error), fan out
the workers over `filtered[i:end]`, drain the channel, and report whether
`len(goroutines) < n` ends the loop (`brk`).  `processed` grows by the
batch size: it is incremented once per spawned goroutine. -/
def runGoStep (env : RunEnv α) (filtered : List String) (n : Nat) (i : Nat)
    (bl : List String) (db : List (PriceRow α)) :
    List (Event α) × Nat × GoCtl α :=
  if env.writeOk i = false then ([], 0, .stop .fatal)
  else
    let batch := (filtered.drop i).take n
    let bo := batchWorkers env bl batch
    if bo.panicked then (Event.writeIdx i :: bo.events, batch.length, .stop .panicked)
    else
      let dr := drainValues env bo.values db
      if dr.2.2 then
        (Event.writeIdx i :: (bo.events ++ dr.1), batch.length, .stop .limitStop)
      else
        (Event.writeIdx i :: (bo.events ++ dr.1), batch.length,
          .next bo.bl dr.2.1 (decide (batch.length < n)))

/-- End of `RunGoRoutines`: the checkpoint is reset to 0 (lines 652-654). -/
def goFinish (env : RunEnv α) (processed : Nat) :
    List (Event α) × Nat × RunOutcome :=
  if env.writeOk 0 then ([Event.writeIdx 0], processed, .completed true)
  else ([], processed, .completed false)

/-- The batch loop `for i := index; i < len(filtered); i += n` of
`RunGoRoutines`, with `fuel` bounding the number of iterations (the entry
point passes enough for any `n ≥ 1`; with `n = 0` the Go loop never
terminates).  After a `brk` batch or once `i` reaches the end, the
checkpoint is reset; the pacing sleep runs only between full batches. -/
def runGoLoop (env : RunEnv α) (filtered : List String) (n : Nat) (sleep : Bool) :
    Nat → Nat → Nat → List String → List (PriceRow α) →
    List (Event α) × Nat × RunOutcome
  | 0, _, processed, _, _ => goFinish env processed
  | fuel + 1, i, processed, bl, db =>
    if i < filtered.length then
      match runGoStep env filtered n i bl db with
      | (evs, padd, .stop oc) => (evs, processed + padd, oc)
      | (evs, padd, .next bl' db' brk) =>
        if brk then
          let f := goFinish env (processed + padd)
          (evs ++ f.1, f.2)
        else
          let evs2 := evs ++ (if sleep then [Event.sleepMinute] else [])
          let r := runGoLoop env filtered n sleep fuel (i + n) (processed + padd) bl' db'
          (evs2 ++ r.1, r.2)
    else goFinish env processed

/-- The pre-loop filtering of `RunGoRoutines` (lines 490, 503-509): drop the
header row, keep the symbols whose blacklist check comes back false. -/
def filterRecords (env : RunEnv α) (records : List (List String))
    (bl : List String) : List String :=
  ((records.drop 1).map (fun row => row.headD "")).filter
    (fun s => ! IsBlacklisted env.blErr bl s)

/-- Model of `RunGoRoutines` (collector.go lines 484-655) after the
fail-fast setup phase.  The slicing `records = records[1:]` at line 490
panics on an empty record list (slice bounds out of range), modelled by
the `panicked` outcome. -/
def RunGoRoutines (env : RunEnv α) (records : List (List String)) (n : Nat)
    (sleep : Bool) (index : Nat) (bl : List String) (db : List (PriceRow α)) :
    List (Event α) × Nat × RunOutcome :=
  if records.isEmpty then ([], 0, RunOutcome.panicked)
  else
    let filtered := filterRecords env records bl
    runGoLoop env filtered n sleep (filtered.length - index + 1) index 0 bl db

/-! Nondeterministic interleaving model of one batch of `RunGoRoutines`
(collector.go lines 544-638), for the scheduling-sensitive claims.  Each
worker goroutine is a script of atomic store-visible actions: writing its
symbol to the blacklist (line 572, executed inside the worker) and sending
its `returnData` value on `returnCh` (the channel is buffered with capacity
`len(goroutines)`, so a send never blocks and is always enabled).  The
closer goroutine (lines 618-622) closes the channel once every worker has
returned (`wg.Wait()`).  The main goroutine's `for value := range returnCh`
receives a buffered value and immediately processes it — in particular it
calls `StoreData` on it (line 633) — and the loop exits only when the
channel is closed and drained; the `len(goroutines) < n` check and the
pacing sleep run after that exit.  A schedule is any interleaving of these
atomic steps; `BSteps` is its trace relation. -/

/-- Atomic store-visible actions of a worker goroutine.  The sent value is
identified by a number (standing for the worker's `returnData`). -/
inductive BAct where
  | ablacklist (symbol : String)
  | asend (v : Nat)
deriving DecidableEq, Repr

/-- Configuration of one batch: per-worker remaining scripts (`none` once
the goroutine has returned, triggering its `wg.Done()`), the channel
buffer, whether `returnCh` was closed, and whether the main range loop has
exited. -/
structure BCfg where
  ws : List (Option (List BAct))
  chan : List Nat
  closed : Bool
  exited : Bool
deriving DecidableEq, Repr

/-- Events observable in a batch schedule. -/
inductive BEv where
  | wblacklist (i : Nat) (symbol : String)
  | wsend (i : Nat) (v : Nat)
  | wfinish (i : Nat)
  | closeCh
  | storeRecv (v : Nat)
  | exitLoop
deriving DecidableEq, Repr

/-- Single steps of the batch schedule. -/
inductive BStep : BCfg → BEv → BCfg → Prop where
  | stepBlacklist (c : BCfg) (i : Nat) (s : String) (rest : List BAct)
      (h : c.ws.get? i = some (some (BAct.ablacklist s :: rest))) :
      BStep c (.wblacklist i s) ⟨c.ws.set i (some rest), c.chan, c.closed, c.exited⟩
  | stepSend (c : BCfg) (i : Nat) (v : Nat) (rest : List BAct)
      (h : c.ws.get? i = some (some (BAct.asend v :: rest))) :
      BStep c (.wsend i v) ⟨c.ws.set i (some rest), c.chan ++ [v], c.closed, c.exited⟩
  | stepFinish (c : BCfg) (i : Nat)
      (h : c.ws.get? i = some (some [])) :
      BStep c (.wfinish i) ⟨c.ws.set i none, c.chan, c.closed, c.exited⟩
  | stepClose (c : BCfg)
      (hall : ∀ w ∈ c.ws, w = none) (hcl : c.closed = false) :
      BStep c .closeCh ⟨c.ws, c.chan, true, c.exited⟩
  | stepRecv (c : BCfg) (v : Nat) (rest : List Nat)
      (hch : c.chan = v :: rest) (hex : c.exited = false) :
      BStep c (.storeRecv v) ⟨c.ws, rest, c.closed, c.exited⟩
  | stepExit (c : BCfg)
      (hcl : c.closed = true) (hch : c.chan = []) (hex : c.exited = false) :
      BStep c .exitLoop ⟨c.ws, c.chan, c.closed, true⟩

/-- Reflexive-transitive trace relation over batch steps. -/
inductive BSteps : BCfg → List BEv → BCfg → Prop where
  | done (c : BCfg) : BSteps c [] c
  | step (c c' c'' : BCfg) (e : BEv) (tr : List BEv)
      (h1 : BStep c e c') (h2 : BSteps c' tr c'') : BSteps c (e :: tr) c''

/-- Initial configuration of a batch whose workers run the given scripts. -/
def batchInit (scripts : List (List BAct)) : BCfg :=
  ⟨scripts.map some, [], false, false⟩

/-! Concrete instances used by counterexamples and witnesses. -/

/-- A decoder that accepts every payload.  Realizable by `json.Unmarshal`:
decoding a JSON object with only unknown fields into `CryptoDataRaw`
succeeds and leaves the zero value. -/
def decodeAllOk : String → Option CryptoDataRaw := fun _ => some emptyRaw

/-- A decoder that rejects every payload (none of them is valid JSON). -/
def decodeNone : String → Option CryptoDataRaw := fun _ => none

/-- A payload containing both the invalid-symbol marker and the daily-limit
marker while still being a decodable JSON object (the markers sit inside a
string field that `json.Unmarshal` ignores). -/
def bothMarkersPayload : String :=
  "\x7b\"Note\": \"Invalid API call. You have reached the 100 requests/day limit\"\x7d"

/-- A payload that is exactly the daily-limit marker. -/
def limitPayload : String := "You have reached the 100 requests/day limit"

/-- Environment whose fetches always return a payload that carries no
marker and is not decodable JSON: every classification lands in the
`default` branch. -/
def envBroken : RunEnv Unit :=
  ⟨decodeNone, fun _ => some (), fun _ => Except.ok "this is not json",
    fun s => "https://api/" ++ s, fun _ => false, false, fun _ => false, false,
    fun _ => true⟩

/-- Production-mode environment whose fetches always come back
limit-reached. -/
def envLimitProd : RunEnv Unit :=
  ⟨decodeAllOk, fun _ => some (), fun _ => Except.ok limitPayload,
    fun s => "https://api/" ++ s, fun _ => false, true, fun _ => false, false,
    fun _ => true⟩

/-- A three-row record list: header plus two symbols. -/
def records3 : List (List String) :=
  [["currency code", "currency name"], ["AAA", "x"], ["BBB", "y"]]

/-- A two-row record list: header plus one symbol. -/
def records2 : List (List String) :=
  [["currency code", "currency name"], ["BTC", "Bitcoin"]]

/-- A curated point used by witnesses. -/
def pBTC : CryptoDataCurated Nat := ⟨"BTC", "2023-06-18", 42⟩

/-- A second curated point used by witnesses. -/
def pETH : CryptoDataCurated Nat := ⟨"ETH", "2023-06-18", 7⟩

/-- Insert-failure oracle that fails exactly on symbol "ETH". -/
def execFailETH : CryptoDataCurated Nat → Bool := fun p => p.symbol == "ETH"

/-- The day number the extractor's walk starts from: the last-refreshed
civil date rolled back to the most recent Sunday
(`t = t.AddDate(0, 0, -int(t.Weekday()))`, line 347). -/
def startSunday (ymd : Int × Int × Int) : Int :=
  daysFromCivil ymd.1 ymd.2.1 ymd.2.2 - weekdayOf (daysFromCivil ymd.1 ymd.2.1 ymd.2.2)

/-- A total value parser (every closing string parses, to itself). -/
def parseAll : String → Option String := fun s => some s

/-- A raw payload whose series has only the last-refreshed Sunday itself:
every earlier week is missing. -/
def cdr8 : CryptoDataRaw := ⟨"2023-06-18 00:00:00", [("2023-06-18", "1.0")]⟩

/-- A full 25-week series of Sundays ending 2023-06-18. -/
def ts25 : List (String × String) :=
  (List.range 25).map
    (fun j => (formatDate (startSunday (2023, 6, 18) - 7 * (j : Int)), "1.0"))

/-- A raw payload with the full 25-week series. -/
def cdr25 : CryptoDataRaw := ⟨"2023-06-18 00:00:00", ts25⟩

/-- Worker scripts of a two-worker batch: each worker just sends its
result value on the channel. -/
def cexScripts : List (List BAct) := [[BAct.asend 0], [BAct.asend 1]]

/-- A legal schedule of that batch in which worker 0's value is received
and stored by the main goroutine while worker 1 has not yet finished (nor
even sent its own value). -/
def cexTrace : List BEv :=
  [BEv.wsend 0 0, BEv.storeRecv 0, BEv.wsend 1 1, BEv.wfinish 0,
    BEv.wfinish 1, BEv.closeCh, BEv.storeRecv 1, BEv.exitLoop]

/-- Final configuration of that schedule. -/
def cexFinal : BCfg := ⟨[none, none], [], true, true⟩

/-! Theorems.  Each claim's theorem carries the claim id in its doc
comment. -/

/-- Helper: `List.any` over rows with a key predicate decides `0 < countKey`. -/
theorem any_key_eq_countKey_pos (rows : List (PriceRow α)) (s t : String) :
    rows.any (fun r => rowKeyMatches r s t) = decide (0 < countKey rows s t) := by
  induction rows with
  | nil => simp [countKey]
  | cons r rest ih =>
    by_cases h : rowKeyMatches r s t = true
    · simp [countKey, List.filter_cons, h]
    · simp [countKey, List.filter_cons, h] at ih ⊢
      exact ih

/-- Helper: effect of one ignore-on-conflict insert on its own key count. -/
theorem countKey_insertOrIgnore_self (rows : List (PriceRow α))
    (p : CryptoDataCurated α) :
    countKey (insertOrIgnore rows p) p.symbol p.date =
      if countKey rows p.symbol p.date = 0 then 1
      else countKey rows p.symbol p.date := by
  unfold insertOrIgnore
  rw [any_key_eq_countKey_pos]
  by_cases h : countKey rows p.symbol p.date = 0
  · have hd : decide (0 < countKey rows p.symbol p.date) = false := by simp [h]
    rw [hd, if_pos h]
    simp only [Bool.false_eq_true, if_false]
    have hp : rowKeyMatches (⟨p.symbol, p.date, p.value⟩ : PriceRow α)
        p.symbol p.date = true := by simp [rowKeyMatches]
    unfold countKey at h ⊢
    simp [List.filter_append, hp, h]
  · have hd : decide (0 < countKey rows p.symbol p.date) = true := by
      simp [Nat.pos_of_ne_zero h]
    rw [hd, if_neg h]
    simp

/-- Helper: the insert loop succeeds exactly when no insert fails, and then
computes the left fold of the ignore-on-conflict inserts. -/
theorem storeLoop_eq (execFail : CryptoDataCurated α → Bool)
    (data : List (CryptoDataCurated α)) :
    ∀ tx, storeLoop execFail tx data =
      if data.all (fun p => !execFail p) then
        some (data.foldl insertOrIgnore tx)
      else none := by
  induction data with
  | nil => intro tx; simp [storeLoop]
  | cons p rest ih =>
    intro tx
    by_cases h : execFail p = true
    · simp [storeLoop, h]
    · simp only [Bool.not_eq_true] at h
      simp [storeLoop, h, ih]

/-- Helper: closed form of `StoreData`. -/
theorem StoreData_eq (execFail : CryptoDataCurated α → Bool) (commitFail : Bool)
    (db : List (PriceRow α)) (data : List (CryptoDataCurated α)) :
    StoreData execFail commitFail db data =
      if data.all (fun p => !execFail p) then
        (if commitFail then (db, some "Failed to commit transaction")
         else (data.foldl insertOrIgnore db, none))
      else (db, some "Failed to insert data into table") := by
  unfold StoreData
  rw [storeLoop_eq]
  by_cases h : data.all (fun p => !execFail p) = true
  · simp [h]
  · simp [h]

/-- C6: storing a curated point twice — in one batch or across repeated
`StoreData` calls — leaves exactly one committed row for its
`(symbol, timestamp)` key, with no error: the ignore-on-conflict insert
under `UNIQUE(symbol, timestamp)` makes re-insertion a silent no-op.  The
hypothesis says the database respects its own uniqueness constraint for
that key (at most one row). -/
theorem c6_store_idempotent (α : Type) (db : List (PriceRow α))
    (p : CryptoDataCurated α)
    (hwf : countKey db p.symbol p.date ≤ 1) :
    (StoreData (fun _ => false) false db [p, p]).2 = none ∧
    countKey (StoreData (fun _ => false) false db [p, p]).1 p.symbol p.date = 1 ∧
    (StoreData (fun _ => false) false
        (StoreData (fun _ => false) false db [p, p]).1 [p]).2 = none ∧
    countKey (StoreData (fun _ => false) false
        (StoreData (fun _ => false) false db [p, p]).1 [p]).1 p.symbol p.date = 1 := by
  have h1 : StoreData (fun _ => false) false db [p, p] =
      (insertOrIgnore (insertOrIgnore db p) p, none) := by
    rw [StoreData_eq]; simp [List.foldl]
  have hc1 : countKey (insertOrIgnore db p) p.symbol p.date = 1 := by
    rw [countKey_insertOrIgnore_self]
    by_cases h : countKey db p.symbol p.date = 0
    · simp [h]
    · have : countKey db p.symbol p.date = 1 := by omega
      simp [this]
  have hc2 : countKey (insertOrIgnore (insertOrIgnore db p) p) p.symbol p.date = 1 := by
    rw [countKey_insertOrIgnore_self, hc1]
    simp
  have h2 : StoreData (fun _ => false) false
      (insertOrIgnore (insertOrIgnore db p) p) [p] =
      (insertOrIgnore (insertOrIgnore (insertOrIgnore db p) p) p, none) := by
    rw [StoreData_eq]; simp [List.foldl]
  have hc3 : countKey (insertOrIgnore (insertOrIgnore (insertOrIgnore db p) p) p)
      p.symbol p.date = 1 := by
    rw [countKey_insertOrIgnore_self, hc2]
    simp
  refine ⟨by rw [h1], by rw [h1]; exact hc2, ?_, ?_⟩
  · rw [h1]
    simp only
    rw [h2]
  · rw [h1]
    simp only
    rw [h2]
    exact hc3

/-- Witness for C6 at a concrete database and point. -/
theorem c6_store_idempotent_witness :
    countKey (StoreData (fun _ => false) false ([] : List (PriceRow Nat))
      [pBTC, pBTC]).1 "BTC" "2023-06-18" = 1 :=
  (c6_store_idempotent Nat [] pBTC (by decide)).2.1

/-- C7: `StoreData` is atomic per batch: the transaction is committed — and
the committed rows change — only when every insert of the batch succeeded
(and the commit itself did); on any insert failure the error is returned
and the committed state is exactly the pre-call state, so no row of the
batch remains committed. -/
theorem c7_storedata_atomic (α : Type) (execFail : CryptoDataCurated α → Bool)
    (commitFail : Bool) (db : List (PriceRow α))
    (data : List (CryptoDataCurated α)) :
    ((StoreData execFail commitFail db data).2 = none ↔
      (∀ p ∈ data, execFail p = false) ∧ commitFail = false) ∧
    ((StoreData execFail commitFail db data).2 ≠ none →
      (StoreData execFail commitFail db data).1 = db) ∧
    ((StoreData execFail commitFail db data).2 = none →
      (StoreData execFail commitFail db data).1 = data.foldl insertOrIgnore db) := by
  rw [StoreData_eq]
  by_cases hall : data.all (fun p => !execFail p) = true
  · have hmem : ∀ p ∈ data, execFail p = false := by
      intro p hp
      have := List.all_eq_true.mp hall p hp
      simpa using this
    by_cases hc : commitFail = true
    · subst hc
      simp [hall, hmem]
    · have hc' : commitFail = false := by simpa using hc
      subst hc'
      simp [hall]
      exact hmem
  · have hnm : ¬ ∀ p ∈ data, execFail p = false := by
      intro hmem
      exact hall (List.all_eq_true.mpr (by intro p hp; simp [hmem p hp]))
    simp [hall, hnm]

/-- Witness for C7: a batch with a failing insert leaves the committed
state untouched. -/
theorem c7_storedata_atomic_witness :
    (StoreData execFailETH false ([] : List (PriceRow Nat)) [pBTC, pETH]).1 = [] :=
  (c7_storedata_atomic Nat execFailETH false [] [pBTC, pETH]).2.1 (by decide)

/-- C4 counterexample: the claim quantifies over *every* payload containing
the limit marker and a decodable JSON body and asserts classification
`limitReached`.  A payload that additionally contains the invalid-symbol
marker — e.g. a JSON object whose ignored "Note" field carries both API
messages, which `json.Unmarshal` decodes successfully — is classified
`missingSymbol` by the first rule, not `limitReached`, so the claim as
stated is false at this input. -/
theorem c4_counterexample :
    strContains bothMarkersPayload limitMarker = true ∧
    decodeAllOk bothMarkersPayload = some emptyRaw ∧
    (GetRawValuesFromResponse decodeAllOk bothMarkersPayload).2 = .missingSymbol ∧
    ¬ (GetRawValuesFromResponse decodeAllOk bothMarkersPayload).2 = .limitReached := by
  exact ⟨by decide, rfl, by decide, by decide⟩

/-- C4 (amended): the classifier is a pure function of the payload checking
its rules in order with first match winning — invalid-symbol marker, then
limit marker, then structured decode — and for every payload that contains
the limit marker, does **not** contain the invalid-symbol marker, and has a
decodable JSON body, the result is `limitReached` and never `allGood`. -/
theorem c4_classification_rules (decode : String → Option CryptoDataRaw)
    (response : String) :
    (strContains response invalidMarker = true →
      GetRawValuesFromResponse decode response = (emptyRaw, .missingSymbol)) ∧
    (strContains response invalidMarker = false →
      strContains response limitMarker = true →
      GetRawValuesFromResponse decode response = (emptyRaw, .limitReached)) ∧
    (strContains response invalidMarker = false →
      strContains response limitMarker = false → decode response = none →
      GetRawValuesFromResponse decode response = (emptyRaw, .jsonBroken)) ∧
    (∀ cd, strContains response invalidMarker = false →
      strContains response limitMarker = false → decode response = some cd →
      GetRawValuesFromResponse decode response = (cd, .allGood)) ∧
    (strContains response limitMarker = true →
      strContains response invalidMarker = false →
      (GetRawValuesFromResponse decode response).2 = .limitReached ∧
      ¬ (GetRawValuesFromResponse decode response).2 = .allGood) := by
  unfold GetRawValuesFromResponse
  refine ⟨?_, ?_, ?_, ?_, ?_⟩ <;> intros <;> simp_all

/-- Witness for C4 (amended) at a concrete limit-reached payload with a
decodable body. -/
theorem c4_classification_rules_witness :
    (GetRawValuesFromResponse decodeAllOk limitPayload).2 = .limitReached :=
  (((c4_classification_rules decodeAllOk limitPayload).2.2.2.2
    (by decide)) (by decide)).1

/-- Helper: a `Run` iteration whose symbol is not treated as blacklisted
reaches the fetch (whatever the fetch then returns). -/
theorem runStep_reaches_fetch (env : RunEnv α) (records : List (List String))
    (n i : Nat) (st : LoopState α)
    (hi : i ≠ 0) (hw : env.writeOk i = true)
    (hbl : IsBlacklisted env.blErr st.bl ((records.getD i []).headD "") = false)
    (hn : ¬(0 < st.processed ∧ n = 0)) :
    Event.fetch (env.urlOf ((records.getD i []).headD "")) ∈
      (runStep env records n i st).1 := by
  unfold runStep
  rw [hw]
  simp only [Bool.true_eq_false, if_false, hi, if_neg hi, hbl, if_neg hn]
  simp only [Bool.false_eq_true, if_false]
  cases hg : env.getData (env.urlOf ((records.getD i []).headD "")) with
  | error e => simp
  | ok r =>
    rcases hs : (GetRawValuesFromResponse env.decode r).2 with _ | _ | _ | _ | _ <;>
      simp_all <;> split <;> simp

/-- Helper: a worker goroutine always begins by fetching its symbol's URL. -/
theorem workerRun_fetch_first (env : RunEnv α) (s : String) :
    ∃ rest, (workerRun env s).events = Event.fetch (env.urlOf s) :: rest := by
  unfold workerRun
  cases hg : env.getData (env.urlOf s) with
  | error e => exact ⟨[], by simp [hg]⟩
  | ok r =>
    rcases hs : (GetRawValuesFromResponse env.decode r).2 with _ | _ | _ | _ | _ <;>
      simp_all <;> split <;> simp

/-- C10: when the blacklist membership query fails, `IsBlacklisted` returns
false (lines 477-479), so both orchestrators treat the symbol as not
blacklisted: the sequential loop iteration proceeds all the way to the
fetch, and the concurrent orchestrator keeps the symbol in its filtered
worker list, whose worker then issues the fetch — blacklist exclusion
fails open on storage errors. -/
theorem c10_blacklist_fails_open :
    (∀ e : String, IsBlacklistedRes (Except.error e) = false) ∧
    (∀ (blErr : String → Bool) (table : List String) (symbol : String),
      blErr symbol = true → IsBlacklisted blErr table symbol = false) ∧
    (∀ (α : Type) (env : RunEnv α) (records : List (List String)) (n i : Nat)
      (st : LoopState α),
      i ≠ 0 → env.writeOk i = true →
      env.blErr ((records.getD i []).headD "") = true →
      ¬(0 < st.processed ∧ n = 0) →
      Event.fetch (env.urlOf ((records.getD i []).headD "")) ∈
        (runStep env records n i st).1) ∧
    (∀ (α : Type) (env : RunEnv α) (records : List (List String))
      (bl : List String) (s : String),
      s ∈ (records.drop 1).map (fun row => row.headD "") → env.blErr s = true →
      s ∈ filterRecords env records bl) ∧
    (∀ (α : Type) (env : RunEnv α) (s : String),
      ∃ rest, (workerRun env s).events = Event.fetch (env.urlOf s) :: rest) := by
  refine ⟨?_, ?_, ?_, ?_, ?_⟩
  · intro e; rfl
  · intro blErr table symbol h
    simp [IsBlacklisted, blQuery, h, IsBlacklistedRes]
  · intro α env records n i st hi hw hb hn
    have hbf : IsBlacklisted env.blErr st.bl ((records.getD i []).headD "") = false := by
      unfold IsBlacklisted blQuery IsBlacklistedRes
      rw [if_pos hb]
    exact runStep_reaches_fetch env records n i st hi hw hbf hn
  · intro α env records bl s hs hb
    unfold filterRecords
    rw [List.mem_filter]
    refine ⟨hs, ?_⟩
    simp [IsBlacklisted, blQuery, hb, IsBlacklistedRes]
  · intro α env s
    exact workerRun_fetch_first env s

/-- Witness for C10 at a concrete failing blacklist query. -/
theorem c10_blacklist_fails_open_witness :
    IsBlacklisted (fun _ => true) ["BTC"] "BTC" = false :=
  c10_blacklist_fails_open.2.1 (fun _ => true) ["BTC"] "BTC" rfl

/-- Helper: step equation of the extractor loop on a missing date (note the
date does not advance, faithfully to the `continue` at line 356). -/
theorem extractLoop_succ_missing (pf : String → Option α)
    (ts : List (String × String)) (sym : String) (k : Nat) (t : Int) (m : Nat)
    (acc : List (CryptoDataCurated α))
    (hl : tsLookup ts (formatDate t) = none) :
    extractLoop pf ts sym (k + 1) t m acc =
      extractLoop pf ts sym k t (m + 1) acc := by
  conv_lhs => unfold extractLoop
  simp only [hl]

/-- Helper: step equation of the extractor loop on an unparseable value. -/
theorem extractLoop_succ_badval (pf : String → Option α)
    (ts : List (String × String)) (sym : String) (k : Nat) (t : Int) (m : Nat)
    (acc : List (CryptoDataCurated α)) (close : String)
    (hl : tsLookup ts (formatDate t) = some close) (hp : pf close = none) :
    extractLoop pf ts sym (k + 1) t m acc =
      (acc, m, some "unable to get the float value from the string") := by
  conv_lhs => unfold extractLoop
  simp only [hl, hp]

/-- Helper: step equation of the extractor loop on a found, parseable value. -/
theorem extractLoop_succ_good (pf : String → Option α)
    (ts : List (String × String)) (sym : String) (k : Nat) (t : Int) (m : Nat)
    (acc : List (CryptoDataCurated α)) (close : String) (v : α)
    (hl : tsLookup ts (formatDate t) = some close) (hp : pf close = some v) :
    extractLoop pf ts sym (k + 1) t m acc =
      extractLoop pf ts sym k (t - 7) m (acc ++ [⟨sym, formatDate t, v⟩]) := by
  conv_lhs => unfold extractLoop
  simp only [hl, hp]

/-- Helper: the extractor loop never decreases the missing counter. -/
theorem extractLoop_missing_mono (pf : String → Option α)
    (ts : List (String × String)) (sym : String) :
    ∀ (k : Nat) (t : Int) (m : Nat) (acc : List (CryptoDataCurated α)),
      m ≤ (extractLoop pf ts sym k t m acc).2.1 := by
  intro k
  induction k with
  | zero => intro t m acc; exact Nat.le_refl m
  | succ k ih =>
    intro t m acc
    cases hl : tsLookup ts (formatDate t) with
    | none =>
      rw [extractLoop_succ_missing pf ts sym k t m acc hl]
      exact Nat.le_trans (Nat.le_succ m) (ih t (m + 1) acc)
    | some close =>
      cases hp : pf close with
      | none =>
        rw [extractLoop_succ_badval pf ts sym k t m acc close hl hp]
      | some v =>
        rw [extractLoop_succ_good pf ts sym k t m acc close v hl hp]
        exact ih (t - 7) m (acc ++ [⟨sym, formatDate t, v⟩])

/-- Helper: a loop error can only come from a closing value, present in the
series, that fails to parse. -/
theorem extractLoop_error_source (pf : String → Option α)
    (ts : List (String × String)) (sym : String) :
    ∀ (k : Nat) (t : Int) (m : Nat) (acc : List (CryptoDataCurated α)) (e : String),
      (extractLoop pf ts sym k t m acc).2.2 = some e →
      ∃ close, (∃ key, tsLookup ts key = some close) ∧ pf close = none := by
  intro k
  induction k with
  | zero => intro t m acc e h; simp [extractLoop] at h
  | succ k ih =>
    intro t m acc e h
    cases hl : tsLookup ts (formatDate t) with
    | none =>
      rw [extractLoop_succ_missing pf ts sym k t m acc hl] at h
      exact ih t (m + 1) acc e h
    | some close =>
      cases hp : pf close with
      | none => exact ⟨close, ⟨formatDate t, hl⟩, hp⟩
      | some v =>
        rw [extractLoop_succ_good pf ts sym k t m acc close v hl hp] at h
        exact ih (t - 7) m (acc ++ [⟨sym, formatDate t, v⟩]) e h

/-- Helper: when no value fails to parse, the loop cannot error. -/
theorem extractLoop_no_error (pf : String → Option α)
    (ts : List (String × String)) (sym : String)
    (hall : ∀ close, (∃ key, tsLookup ts key = some close) →
      ∃ w, pf close = some w) :
    ∀ (k : Nat) (t : Int) (m : Nat) (acc : List (CryptoDataCurated α)),
      (extractLoop pf ts sym k t m acc).2.2 = none := by
  intro k
  induction k with
  | zero => intro t m acc; rfl
  | succ k ih =>
    intro t m acc
    cases hl : tsLookup ts (formatDate t) with
    | none =>
      rw [extractLoop_succ_missing pf ts sym k t m acc hl]
      exact ih t (m + 1) acc
    | some close =>
      obtain ⟨w, hw⟩ := hall close ⟨formatDate t, hl⟩
      rw [extractLoop_succ_good pf ts sym k t m acc close w hl hw]
      exact ih (t - 7) m (acc ++ [⟨sym, formatDate t, w⟩])

/-- Helper: on a clean finish, found points plus missing steps account for
every iteration of the loop. -/
theorem extractLoop_count (pf : String → Option α)
    (ts : List (String × String)) (sym : String) :
    ∀ (k : Nat) (t : Int) (m : Nat) (acc : List (CryptoDataCurated α)),
      (extractLoop pf ts sym k t m acc).2.2 = none →
      (extractLoop pf ts sym k t m acc).2.1 +
        (extractLoop pf ts sym k t m acc).1.length = m + acc.length + k := by
  intro k
  induction k with
  | zero => intro t m acc _; simp [extractLoop]
  | succ k ih =>
    intro t m acc h
    cases hl : tsLookup ts (formatDate t) with
    | none =>
      rw [extractLoop_succ_missing pf ts sym k t m acc hl] at h ⊢
      have := ih t (m + 1) acc h
      omega
    | some close =>
      cases hp : pf close with
      | none =>
        rw [extractLoop_succ_badval pf ts sym k t m acc close hl hp] at h
        simp at h
      | some v =>
        rw [extractLoop_succ_good pf ts sym k t m acc close v hl hp] at h ⊢
        have := ih (t - 7) m (acc ++ [⟨sym, formatDate t, v⟩]) h
        simp at this
        omega

/-- Helper: if the loop finishes cleanly without counting anything missing,
every probed week-stepped date was present in the series. -/
theorem extractLoop_all_found (pf : String → Option α)
    (ts : List (String × String)) (sym : String) :
    ∀ (k : Nat) (t : Int) (m : Nat) (acc : List (CryptoDataCurated α)),
      (extractLoop pf ts sym k t m acc).2.2 = none →
      (extractLoop pf ts sym k t m acc).2.1 = m →
      ∀ j, j < k → ∃ c, tsLookup ts (formatDate (t - 7 * (j : Int))) = some c := by
  intro k
  induction k with
  | zero => intro t m acc _ _ j hj; omega
  | succ k ih =>
    intro t m acc herr hm j hj
    cases hl : tsLookup ts (formatDate t) with
    | none =>
      rw [extractLoop_succ_missing pf ts sym k t m acc hl] at hm
      have := extractLoop_missing_mono pf ts sym k t (m + 1) acc
      omega
    | some close =>
      cases hp : pf close with
      | none =>
        rw [extractLoop_succ_badval pf ts sym k t m acc close hl hp] at herr
        simp at herr
      | some v =>
        rw [extractLoop_succ_good pf ts sym k t m acc close v hl hp] at herr hm
        cases j with
        | zero => exact ⟨close, by simpa using hl⟩
        | succ j' =>
          have hstep := ih (t - 7) m (acc ++ [⟨sym, formatDate t, v⟩]) herr hm j' (by omega)
          have harith : t - 7 - 7 * (j' : Int) = t - 7 * (((j' + 1 : Nat)) : Int) := by
            push_cast
            ring
          rw [harith] at hstep
          exact hstep

/-- Helper: when every one of the next `k` week-stepped dates is present
with a parseable value, the loop returns exactly those points, in order,
with nothing counted missing. -/
theorem extractLoop_complete (pf : String → Option α)
    (ts : List (String × String)) (sym : String) :
    ∀ (k : Nat) (t : Int) (m : Nat) (acc : List (CryptoDataCurated α))
      (close : Nat → String) (v : Nat → α),
      (∀ j, j < k → tsLookup ts (formatDate (t - 7 * (j : Int))) = some (close j) ∧
        pf (close j) = some (v j)) →
      extractLoop pf ts sym k t m acc =
        (acc ++ (List.range k).map
          (fun j => ⟨sym, formatDate (t - 7 * (j : Int)), v j⟩), m, none) := by
  intro k
  induction k with
  | zero => intro t m acc close v _; simp [extractLoop]
  | succ k ih =>
    intro t m acc close v h
    have h0 := h 0 (Nat.succ_pos k)
    have h0l : tsLookup ts (formatDate t) = some (close 0) := by
      have : t - 7 * ((0 : Nat) : Int) = t := by simp
      rw [this] at h0
      exact h0.1
    have h0p : pf (close 0) = some (v 0) := h0.2
    rw [extractLoop_succ_good pf ts sym k t m acc (close 0) (v 0) h0l h0p]
    have hshift : ∀ j, j < k →
        tsLookup ts (formatDate (t - 7 - 7 * (j : Int))) = some (close (j + 1)) ∧
        pf (close (j + 1)) = some (v (j + 1)) := by
      intro j hj
      have := h (j + 1) (by omega)
      have harith : t - 7 * (((j + 1 : Nat)) : Int) = t - 7 - 7 * (j : Int) := by
        push_cast
        ring
      rw [harith] at this
      exact this
    have := ih (t - 7) m (acc ++ [⟨sym, formatDate t, v 0⟩])
      (fun j => close (j + 1)) (fun j => v (j + 1)) hshift
    rw [this]
    have hpt : (⟨sym, formatDate t, v 0⟩ : CryptoDataCurated α) =
        ⟨sym, formatDate (t - 7 * ((0 : Nat) : Int)), v 0⟩ := by simp
    rw [List.range_succ_eq_map, List.map_cons, List.map_map]
    simp only [List.append_assoc, List.singleton_append]
    refine congrArg (fun l => (acc ++ l, m, (none : Option String))) ?_
    rw [hpt]
    refine congrArg₂ (fun a b => a :: b) rfl ?_
    refine List.map_congr_left ?_
    intro j hj
    simp only [Function.comp]
    have harith : t - 7 - 7 * (j : Int) = t - 7 * (((j + 1 : Nat)) : Int) := by
      push_cast
      ring
    rw [harith]

/-- Helper: closed form of `ExtractDataFromValues` once the last-refreshed
header parses. -/
theorem ExtractDataFromValues_eq (pf : String → Option α) (cdr : CryptoDataRaw)
    (n : Nat) (sym : String) (d : String) (ymd : Int × Int × Int)
    (hcut : cutSpace cdr.lastRefreshed = some d)
    (hdate : parseDate d = some ymd) :
    ExtractDataFromValues pf cdr n sym =
      ((extractLoop pf cdr.timeSeries sym n (startSunday ymd) 0 []).1,
        (n : Int) -
          ((extractLoop pf cdr.timeSeries sym n (startSunday ymd) 0 []).2.1 : Int),
        (extractLoop pf cdr.timeSeries sym n (startSunday ymd) 0 []).2.2) := by
  unfold ExtractDataFromValues
  simp only [hcut, hdate]
  rfl

/-- C8: extraction returns an error only when the last-refreshed date is
unsplittable or unparseable or some present closing value fails to parse;
on a clean return the number of returned points equals the returned count
and the count never exceeds `n`; and when the header parses, every present
value parses, and at least one of the probed week-stepped dates is absent,
the result is fewer than `n` points with a count strictly below `n` and no
error. -/
theorem c8_tolerant_extraction (α : Type) (parseFloat : String → Option α)
    (cdr : CryptoDataRaw) (n : Nat) (symbol : String) :
    (∀ e, (ExtractDataFromValues parseFloat cdr n symbol).2.2 = some e →
      cutSpace cdr.lastRefreshed = none ∨
      (∃ d, cutSpace cdr.lastRefreshed = some d ∧ parseDate d = none) ∨
      (∃ close, (∃ key, tsLookup cdr.timeSeries key = some close) ∧
        parseFloat close = none)) ∧
    ((ExtractDataFromValues parseFloat cdr n symbol).2.2 = none →
      ((ExtractDataFromValues parseFloat cdr n symbol).1.length : Int) =
        (ExtractDataFromValues parseFloat cdr n symbol).2.1 ∧
      (ExtractDataFromValues parseFloat cdr n symbol).2.1 ≤ (n : Int)) ∧
    (∀ d ymd, cutSpace cdr.lastRefreshed = some d → parseDate d = some ymd →
      (∀ close, (∃ key, tsLookup cdr.timeSeries key = some close) →
        ∃ w, parseFloat close = some w) →
      (∃ j, j < n ∧ tsLookup cdr.timeSeries
        (formatDate (startSunday ymd - 7 * (j : Int))) = none) →
      (ExtractDataFromValues parseFloat cdr n symbol).2.2 = none ∧
      (ExtractDataFromValues parseFloat cdr n symbol).2.1 < (n : Int) ∧
      (ExtractDataFromValues parseFloat cdr n symbol).1.length < n) := by
  refine ⟨?_, ?_, ?_⟩
  · intro e he
    cases hcut : cutSpace cdr.lastRefreshed with
    | none => exact Or.inl rfl
    | some d =>
      cases hdate : parseDate d with
      | none => exact Or.inr (Or.inl ⟨d, rfl, hdate⟩)
      | some ymd =>
        rw [ExtractDataFromValues_eq parseFloat cdr n symbol d ymd hcut hdate] at he
        exact Or.inr (Or.inr
          (extractLoop_error_source parseFloat cdr.timeSeries symbol n
            (startSunday ymd) 0 [] e he))
  · intro he
    cases hcut : cutSpace cdr.lastRefreshed with
    | none =>
      unfold ExtractDataFromValues at he
      simp only [hcut] at he
      simp at he
    | some d =>
      cases hdate : parseDate d with
      | none =>
        unfold ExtractDataFromValues at he
        simp only [hcut, hdate] at he
        simp at he
      | some ymd =>
        rw [ExtractDataFromValues_eq parseFloat cdr n symbol d ymd hcut hdate] at he ⊢
        have hcnt := extractLoop_count parseFloat cdr.timeSeries symbol n
          (startSunday ymd) 0 [] he
        have hmono := extractLoop_missing_mono parseFloat cdr.timeSeries symbol n
          (startSunday ymd) 0 []
        simp only
        constructor
        · simp at hcnt
          omega
        · omega
  · intro d ymd hcut hdate hvals hmiss
    rw [ExtractDataFromValues_eq parseFloat cdr n symbol d ymd hcut hdate]
    have he := extractLoop_no_error parseFloat cdr.timeSeries symbol hvals n
      (startSunday ymd) 0 []
    have hcnt := extractLoop_count parseFloat cdr.timeSeries symbol n
      (startSunday ymd) 0 [] he
    simp only [List.length_nil] at hcnt
    have hm1 : (extractLoop parseFloat cdr.timeSeries symbol n
        (startSunday ymd) 0 []).2.1 ≠ 0 := by
      intro h0
      obtain ⟨j, hj, hnone⟩ := hmiss
      obtain ⟨c, hc⟩ := extractLoop_all_found parseFloat cdr.timeSeries symbol n
        (startSunday ymd) 0 [] he h0 j hj
      rw [hnone] at hc
      exact Option.noConfusion hc
    refine ⟨he, ?_, ?_⟩ <;> simp only <;> omega

/-- Witness for C8 at a concrete series missing the week before its
last-refreshed Sunday. -/
theorem c8_tolerant_extraction_witness :
    (ExtractDataFromValues parseAll cdr8 3 "BTC").1.length < 3 :=
  ((c8_tolerant_extraction String parseAll cdr8 3 "BTC").2.2 "2023-06-18"
    (2023, 6, 18) (by decide) (by decide)
    (fun close _ => ⟨close, rfl⟩)
    ⟨1, by omega, by decide⟩).2.2

/-- Helper: rolling a day number back by its weekday lands on a Sunday. -/
theorem weekdayOf_startSunday (t : Int) : weekdayOf (t - weekdayOf t) = 0 := by
  unfold weekdayOf
  omega

/-- C9: for a raw series carrying an entry for each of the 25 week-stepped
Sundays walking back from the last-refreshed date (normalized to the most
recent Sunday; weekday 0 means no adjustment, last conjunct), extraction
with `n = 25` returns exactly those 25 points, in order, whose dates are
the week-stepped Sundays and whose values are exactly the parses of the
closing strings (the parse results `v j` are stored unchanged — never
rounded or truncated; `parseFloat` stands for `strconv.ParseFloat`, the
double-precision decimal parse). -/
theorem c9_complete_extraction (α : Type) (parseFloat : String → Option α)
    (cdr : CryptoDataRaw) (symbol : String) (d : String)
    (ymd : Int × Int × Int) (close : Nat → String) (v : Nat → α)
    (hcut : cutSpace cdr.lastRefreshed = some d)
    (hdate : parseDate d = some ymd)
    (hweeks : ∀ j : Nat, j < 25 → tsLookup cdr.timeSeries
        (formatDate (startSunday ymd - 7 * (j : Int))) = some (close j) ∧
      parseFloat (close j) = some (v j)) :
    ExtractDataFromValues parseFloat cdr 25 symbol =
      ((List.range 25).map (fun j =>
        ⟨symbol, formatDate (startSunday ymd - 7 * (j : Int)), v j⟩), 25, none) ∧
    (ExtractDataFromValues parseFloat cdr 25 symbol).1.length = 25 ∧
    weekdayOf (startSunday ymd) = 0 ∧
    (weekdayOf (daysFromCivil ymd.1 ymd.2.1 ymd.2.2) = 0 →
      startSunday ymd = daysFromCivil ymd.1 ymd.2.1 ymd.2.2) := by
  have hloop := extractLoop_complete parseFloat cdr.timeSeries symbol 25
    (startSunday ymd) 0 [] close v hweeks
  have hmain : ExtractDataFromValues parseFloat cdr 25 symbol =
      ((List.range 25).map (fun j =>
        ⟨symbol, formatDate (startSunday ymd - 7 * (j : Int)), v j⟩), 25, none) := by
    rw [ExtractDataFromValues_eq parseFloat cdr 25 symbol d ymd hcut hdate, hloop]
    simp
  refine ⟨hmain, ?_, ?_, ?_⟩
  · rw [hmain]
    simp
  · exact weekdayOf_startSunday (daysFromCivil ymd.1 ymd.2.1 ymd.2.2)
  · intro h0
    unfold startSunday
    rw [h0]
    ring

/-- Witness for C9 at a concrete full 25-week series ending on the Sunday
2023-06-18. -/
theorem c9_complete_extraction_witness :
    (ExtractDataFromValues parseAll cdr25 25 "BTC").1.length = 25 :=
  (c9_complete_extraction String parseAll cdr25 "BTC" "2023-06-18"
    (2023, 6, 18) (fun _ => "1.0") (fun _ => "1.0")
    (by decide) (by decide)
    (by decide)).2.1

/-- C1 is a code bug (nil-error dereference): a fetched response that
contains neither marker and fails the structured decode classifies as
`jsonBroken` and lands in the `default` branch of both orchestrators, which
evaluates `err.Error()` — but `err` is necessarily `nil` there, because the
transport-error path already returned (line 206, resp. 562).  Calling
`.Error()` on a nil error panics, so a `jsonBroken` response terminates
both runs abnormally instead of being logged and skipped.  The theorem
evaluates both models at such an input: the run outcome is `panicked`, not
a log-and-continue. -/
theorem c1_default_branch_panics :
    (GetRawValuesFromResponse decodeNone "this is not json").2 = Status.jsonBroken ∧
    goErrorCall none = Except.error () ∧
    (Run envBroken records2 5 0 [] []).2.2 = RunOutcome.panicked ∧
    (RunGoRoutines envBroken records2 5 true 0 [] []).2.2 = RunOutcome.panicked := by
  exact ⟨by decide, rfl, by decide, by decide⟩

/-- C3 counterexample: with production mode on and the fetch of symbol AAA
classified limit-reached, the full trace of the sequential run shows the
day-long sleep followed immediately by the checkpoint write for the *next*
index and the fetch of BBB; AAA is fetched exactly once in the whole run,
so the orchestrator does not "continue from the same symbol" after the
sleep — it skips it. -/
theorem c3_counterexample :
    Run envLimitProd records3 5 0 [] [] =
      ([Event.writeIdx 0, Event.writeIdx 1, Event.fetch "https://api/AAA",
        Event.sleepDay, Event.writeIdx 2, Event.fetch "https://api/BBB",
        Event.sleepDay, Event.writeIdx 0], 2, RunOutcome.completed true) ∧
    (Run envLimitProd records3 5 0 [] []).1.count
      (Event.fetch "https://api/AAA") = 1 := by
  exact ⟨by decide, by decide⟩

/-- C3 (amended): on a limit-reached classification the sequential
orchestrator in production mode sleeps a full day and then continues with
the **next** symbol — the iteration ends in `.next` control after emitting
exactly one fetch, and the loop equation shows the run resumes at index
`i + 1`, so the limit-hit symbol is not fetched again in this run; in
non-production mode the loop stops and returns normally (`limitStop` is
the `return processed, nil` path). -/
theorem c3_limit_sleeps_then_next_symbol (α : Type) (env : RunEnv α)
    (records : List (List String)) (n i : Nat) (st : LoopState α) (resp : String)
    (hw : env.writeOk i = true) (hi : i ≠ 0)
    (hbl : IsBlacklisted env.blErr st.bl ((records.getD i []).headD "") = false)
    (hn : ¬(0 < st.processed ∧ n = 0))
    (hget : env.getData (env.urlOf ((records.getD i []).headD "")) = Except.ok resp)
    (hinv : strContains resp invalidMarker = false)
    (hlim : strContains resp limitMarker = true) :
    (env.production = true →
      runStep env records n i st =
        ((if 0 < st.processed ∧ st.processed % n = 0
            then [Event.writeIdx i, Event.sleepMinute] else [Event.writeIdx i]) ++
          [Event.fetch (env.urlOf ((records.getD i []).headD "")), Event.sleepDay],
          ⟨st.processed + 1, st.bl, st.db⟩, StepCtl.next)) ∧
    (env.production = false →
      runStep env records n i st =
        ((if 0 < st.processed ∧ st.processed % n = 0
            then [Event.writeIdx i, Event.sleepMinute] else [Event.writeIdx i]) ++
          [Event.fetch (env.urlOf ((records.getD i []).headD ""))],
          ⟨st.processed + 1, st.bl, st.db⟩, StepCtl.stop RunOutcome.limitStop)) ∧
    (∀ (fuel : Nat) (evs : List (Event α)) (st' : LoopState α),
      runStep env records n i st = (evs, st', StepCtl.next) →
      runLoop env records n (fuel + 1) i st =
        (evs ++ (runLoop env records n fuel (i + 1) st').1,
          (runLoop env records n fuel (i + 1) st').2)) := by
  have hcls : GetRawValuesFromResponse env.decode resp =
      (emptyRaw, Status.limitReached) := by
    unfold GetRawValuesFromResponse
    simp [hinv, hlim]
  refine ⟨?_, ?_, ?_⟩
  · intro hp
    unfold runStep
    simp only [hw, Bool.true_eq_false, if_false, hi, if_neg hi, hbl,
      Bool.false_eq_true, if_neg hn, hget, hcls, hp, if_true]
  · intro hp
    unfold runStep
    simp only [hw, Bool.true_eq_false, if_false, hi, if_neg hi, hbl,
      Bool.false_eq_true, if_neg hn, hget, hcls, hp]
  · intro fuel evs st' hstep
    conv_lhs => unfold runLoop
    simp only [hstep]

/-- Witness for C3 (amended) at a concrete production-mode run. -/
theorem c3_limit_sleeps_then_next_symbol_witness :
    (runStep envLimitProd records3 5 1 ⟨0, [], []⟩).2.2 = StepCtl.next := by
  have h := (c3_limit_sleeps_then_next_symbol Unit envLimitProd records3 5 1
    ⟨0, [], []⟩ limitPayload (by decide) (by decide) (by decide) (by decide)
    rfl (by decide) (by decide)).1 rfl
  rw [h]

/-- Helper: complete branch characterization of one `Run` loop iteration.
Either the checkpoint write failed (no events, fatal stop); or the
iteration skipped (header row or blacklisted symbol: bare checkpoint
write, continue); or the `n = 0` modulo panic fired; or the iteration
fetched: checkpoint write, optional pacing sleep, exactly one fetch of the
current record's URL, then fetch-free and write-free trailing events, with
the control being continue or a non-`completed` stop. -/
theorem runStep_char (env : RunEnv α) (records : List (List String)) (n i : Nat)
    (st : LoopState α) :
    (runStep env records n i st = ([], st, StepCtl.stop RunOutcome.fatal)) ∨
    (runStep env records n i st = ([Event.writeIdx i], st, StepCtl.next)) ∨
    (runStep env records n i st =
      ([Event.writeIdx i], st, StepCtl.stop RunOutcome.panicked)) ∨
    (∃ pace tail st' ctl,
      runStep env records n i st =
        ((Event.writeIdx i :: pace) ++
          (Event.fetch (env.urlOf ((records.getD i []).headD "")) :: tail),
          st', ctl) ∧
      (pace = [] ∨ pace = [Event.sleepMinute]) ∧
      (∀ z ∈ tail, isFetchEv z = false) ∧ ckWrites tail = [] ∧
      (ctl = StepCtl.next ∨ ctl = StepCtl.stop RunOutcome.fatal ∨
        ctl = StepCtl.stop RunOutcome.limitStop ∨
        ctl = StepCtl.stop RunOutcome.panicked)) := by
  unfold runStep
  by_cases hw : env.writeOk i = false
  · rw [if_pos hw]
    exact Or.inl rfl
  · rw [if_neg hw]
    by_cases hz : i = 0
    · rw [if_pos hz]
      exact Or.inr (Or.inl rfl)
    · rw [if_neg hz]
      by_cases hbl : IsBlacklisted env.blErr st.bl ((records.getD i []).headD "") = true
      · rw [if_pos hbl]
        exact Or.inr (Or.inl rfl)
      · rw [if_neg hbl]
        by_cases hn : 0 < st.processed ∧ n = 0
        · rw [if_pos hn]
          exact Or.inr (Or.inr (Or.inl rfl))
        · rw [if_neg hn]
          have hevs : (if 0 < st.processed ∧ st.processed % n = 0
              then [Event.writeIdx i, Event.sleepMinute]
              else [Event.writeIdx i]) =
              Event.writeIdx i :: (if 0 < st.processed ∧ st.processed % n = 0
                then [Event.sleepMinute] else ([] : List (Event α))) := by
            split <;> rfl
          rw [hevs]
          have hpace : (if 0 < st.processed ∧ st.processed % n = 0
              then [Event.sleepMinute] else ([] : List (Event α))) = [] ∨
              (if 0 < st.processed ∧ st.processed % n = 0
              then [Event.sleepMinute] else ([] : List (Event α))) =
                [Event.sleepMinute] := by
            split
            · exact Or.inr rfl
            · exact Or.inl rfl
          refine Or.inr (Or.inr (Or.inr ?_))
          cases hg : env.getData (env.urlOf ((records.getD i []).headD "")) with
          | error e =>
            simp only [hg]
            exact ⟨_, [], _, _, rfl, hpace, by simp, rfl,
              Or.inr (Or.inl rfl)⟩
          | ok response =>
            simp only [hg]
            rcases hst : (GetRawValuesFromResponse env.decode response).2 with
              _ | _ | _ | _ | _
            · simp only [hst]
              cases he : (ExtractDataFromValues env.parseFloat
                  (GetRawValuesFromResponse env.decode response).1 25
                  ((records.getD i []).headD "")).2.2 with
              | some e =>
                simp only [he]
                exact ⟨_, [], _, _, rfl, hpace, by simp, rfl, Or.inl rfl⟩
              | none =>
                simp only [he]
                exact ⟨_, [Event.store _], _, _, rfl, hpace,
                  by simp [isFetchEv], by simp [ckWrites], Or.inl rfl⟩
            · simp only [hst]
              by_cases hprod : env.production = true
              · rw [if_pos hprod]
                exact ⟨_, [Event.sleepDay], _, _, rfl, hpace,
                  by simp [isFetchEv], by simp [ckWrites], Or.inl rfl⟩
              · rw [if_neg hprod]
                exact ⟨_, [], _, _, rfl, hpace, by simp, rfl,
                  Or.inr (Or.inr (Or.inl rfl))⟩
            · simp only [hst, goErrorCall]
              exact ⟨_, [], _, _, rfl, hpace, by simp, rfl,
                Or.inr (Or.inr (Or.inr rfl))⟩
            · simp only [hst]
              exact ⟨_, [Event.blacklistAdd _], _, _, rfl, hpace,
                by simp [isFetchEv], by simp [ckWrites], Or.inl rfl⟩
            · simp only [hst, goErrorCall]
              exact ⟨_, [], _, _, rfl, hpace, by simp, rfl,
                Or.inr (Or.inr (Or.inr rfl))⟩

/-- Helper: an iteration never stops the loop with a `completed` outcome. -/
theorem runStep_stop_not_completed (env : RunEnv α) (records : List (List String))
    (n i : Nat) (st : LoopState α) (oc : RunOutcome) (b : Bool)
    (h : (runStep env records n i st).2.2 = StepCtl.stop oc) :
    ¬ oc = RunOutcome.completed b := by
  rcases runStep_char env records n i st with hc | hc | hc |
    ⟨pace, tail, st', ctl, hc, _, _, _, hctl⟩ <;> rw [hc] at h
  · simp at h
    subst h
    simp
  · simp at h
  · simp at h
    subst h
    simp
  · simp at h
    rcases hctl with h1 | h1 | h1 | h1 <;> rw [h1] at h <;> simp at h <;>
      subst h <;> simp

/-- Helper: an iteration writes exactly its own index as checkpoint, except
that a failed checkpoint write aborts with no write at all. -/
theorem runStep_ckWrites (env : RunEnv α) (records : List (List String))
    (n i : Nat) (st : LoopState α) :
    ckWrites (runStep env records n i st).1 = [i] ∨
      ((runStep env records n i st).1 = [] ∧
        (runStep env records n i st).2.2 = StepCtl.stop RunOutcome.fatal) := by
  rcases runStep_char env records n i st with hc | hc | hc |
    ⟨pace, tail, st', ctl, hc, hpace, _, htail, _⟩ <;> rw [hc]
  · exact Or.inr ⟨rfl, rfl⟩
  · exact Or.inl (by simp [ckWrites])
  · exact Or.inl (by simp [ckWrites])
  · refine Or.inl ?_
    rcases hpace with h1 | h1 <;> subst h1 <;>
      simp [ckWrites, List.filterMap_append] at htail ⊢ <;> exact htail

/-- Helper: if an iteration fetched `u`, its first event is the checkpoint
write of its own index and `u` is the URL of its own record. -/
theorem runStep_fetch_info (env : RunEnv α) (records : List (List String))
    (n i : Nat) (st : LoopState α) (u : String)
    (hm : Event.fetch u ∈ (runStep env records n i st).1) :
    (runStep env records n i st).1.head? = some (Event.writeIdx i) ∧
      u = env.urlOf ((records.getD i []).headD "") := by
  rcases runStep_char env records n i st with hc | hc | hc |
    ⟨pace, tail, st', ctl, hc, hpace, htail, _, _⟩ <;> rw [hc] at hm ⊢
  · simp at hm
  · simp at hm
  · simp at hm
  · refine ⟨rfl, ?_⟩
    rw [List.cons_append] at hm
    rcases List.mem_cons.mp hm with h1 | h1
    · exact absurd h1 (by simp)
    rcases List.mem_append.mp h1 with h1 | h1
    · rcases hpace with h2 | h2 <;> subst h2 <;> simp at h1
    rcases List.mem_cons.mp h1 with h1 | h1
    · injection h1 with h1
    · have := htail _ h1
      simp [isFetchEv] at this

/-- Helper: `ckWrites` distributes over concatenation. -/
theorem ckWrites_append (a b : List (Event α)) :
    ckWrites (a ++ b) = ckWrites a ++ ckWrites b := by
  unfold ckWrites
  exact List.filterMap_append a b _

/-- Helper: a list with a distinguished element satisfying a predicate that
fails everywhere else splits uniquely at that element. -/
theorem append_cons_eq_of_not_pred {β : Type} (p : β → Bool) :
    ∀ (a : List β) (x : β) (b t1 t2 : List β) (y : β),
      a ++ x :: b = t1 ++ y :: t2 →
      (∀ z ∈ a, p z = false) → (∀ z ∈ b, p z = false) →
      p x = true → p y = true →
      t1 = a ∧ y = x ∧ t2 = b := by
  intro a
  induction a with
  | nil =>
    intro x b t1 t2 y h ha hb hx hy
    cases t1 with
    | nil =>
      rw [List.nil_append, List.nil_append] at h
      injection h with h1 h2
      exact ⟨rfl, h1.symm, h2.symm⟩
    | cons c t1' =>
      rw [List.nil_append, List.cons_append] at h
      injection h with h1 h2
      exfalso
      have hyb : y ∈ b := by
        rw [h2]
        exact List.mem_append.mpr (Or.inr (List.mem_cons_self y t2))
      rw [hb y hyb] at hy
      exact Bool.noConfusion hy
  | cons c a' ih =>
    intro x b t1 t2 y h ha hb hx hy
    cases t1 with
    | nil =>
      rw [List.cons_append, List.nil_append] at h
      injection h with h1 h2
      exfalso
      rw [← h1] at hy
      rw [ha c (List.mem_cons_self c a')] at hy
      exact Bool.noConfusion hy
    | cons d t1' =>
      rw [List.cons_append, List.cons_append] at h
      injection h with h1 h2
      obtain ⟨e1, e2, e3⟩ := ih x b t1' t2 y h2
        (fun z hz => ha z (List.mem_cons_of_mem c hz)) hb hx hy
      subst h1
      rw [e1]
      exact ⟨rfl, e2, e3⟩

/-- Helper: the events of an iteration are either empty or begin with the
iteration's checkpoint write. -/
theorem runStep_events_head (env : RunEnv α) (records : List (List String))
    (n i : Nat) (st : LoopState α) :
    (runStep env records n i st).1 = [] ∨
      (runStep env records n i st).1.head? = some (Event.writeIdx i) := by
  rcases runStep_char env records n i st with hc | hc | hc |
    ⟨pace, tail, st', ctl, hc, _, _, _, _⟩ <;> rw [hc]
  · exact Or.inl rfl
  · exact Or.inr rfl
  · exact Or.inr rfl
  · exact Or.inr rfl

/-- Helper: when an iteration's events decompose at a fetch, the part
before the fetch consists of checkpoint-write `i` (plus pacing) and the
fetched URL is that of record `i`. -/
theorem runStep_fetch_decomp (env : RunEnv α) (records : List (List String))
    (n i : Nat) (st : LoopState α) (t1 t2 : List (Event α)) (u : String)
    (h : (runStep env records n i st).1 = t1 ++ Event.fetch u :: t2) :
    ckWrites t1 = [i] ∧ u = env.urlOf ((records.getD i []).headD "") := by
  have hm : Event.fetch u ∈ (runStep env records n i st).1 := by
    rw [h]
    exact List.mem_append.mpr (Or.inr (List.mem_cons_self _ t2))
  rcases runStep_char env records n i st with hc | hc | hc |
    ⟨pace, tail, st', ctl, hc, hpace, htail, _, _⟩
  · rw [hc] at hm; simp at hm
  · rw [hc] at hm; simp at hm
  · rw [hc] at hm; simp at hm
  · rw [hc] at h
    have hsplit := append_cons_eq_of_not_pred (isFetchEv (α := α))
      (Event.writeIdx i :: pace)
      (Event.fetch (env.urlOf ((records.getD i []).headD ""))) tail t1 t2
      (Event.fetch u) h
      (by
        intro z hz
        rcases List.mem_cons.mp hz with h1 | h1
        · rw [h1]; rfl
        · rcases hpace with h2 | h2 <;> subst h2 <;> simp at h1
          rw [h1]; rfl)
      htail rfl rfl
    obtain ⟨e1, e2, _⟩ := hsplit
    constructor
    · rw [e1]
      rcases hpace with h2 | h2 <;> subst h2 <;> simp [ckWrites]
    · injection e2 with e2

/-- Helper: unfolding equation of `runLoop` with no fuel (loop finished). -/
theorem runLoop_zero (env : RunEnv α) (records : List (List String)) (n : Nat)
    (i : Nat) (st : LoopState α) :
    runLoop env records n 0 i st =
      if env.writeOk 0 = true
      then ([Event.writeIdx 0], st.processed, RunOutcome.completed true)
      else ([], st.processed, RunOutcome.completed false) := rfl

/-- Helper: unfolding equation of `runLoop` when the iteration continues. -/
theorem runLoop_succ_next (env : RunEnv α) (records : List (List String))
    (n fuel i : Nat) (st : LoopState α) (evs : List (Event α)) (st' : LoopState α)
    (h : runStep env records n i st = (evs, st', StepCtl.next)) :
    runLoop env records n (fuel + 1) i st =
      (evs ++ (runLoop env records n fuel (i + 1) st').1,
        (runLoop env records n fuel (i + 1) st').2) := by
  conv_lhs => unfold runLoop
  simp only [h]

/-- Helper: unfolding equation of `runLoop` when the iteration stops. -/
theorem runLoop_succ_stop (env : RunEnv α) (records : List (List String))
    (n fuel i : Nat) (st : LoopState α) (evs : List (Event α)) (st' : LoopState α)
    (oc : RunOutcome)
    (h : runStep env records n i st = (evs, st', StepCtl.stop oc)) :
    runLoop env records n (fuel + 1) i st = (evs, st'.processed, oc) := by
  conv_lhs => unfold runLoop
  simp only [h]

/-- Helper: the checkpoint writes of a sequential loop run are the
consecutive indices starting at the entry index, followed by the reset
write of 0 exactly when the loop completed the whole list (and the final
write succeeded). -/
theorem runLoop_ckWrites (env : RunEnv α) (records : List (List String)) (n : Nat) :
    ∀ (fuel i : Nat) (st : LoopState α),
      ∃ k, ckWrites (runLoop env records n fuel i st).1 =
        List.range' i k ++
          (if (runLoop env records n fuel i st).2.2 = RunOutcome.completed true
            then [0] else []) := by
  intro fuel
  induction fuel with
  | zero =>
    intro i st
    by_cases hw : env.writeOk 0 = true
    · have h0 : runLoop env records n 0 i st =
          ([Event.writeIdx 0], st.processed, RunOutcome.completed true) := by
        rw [runLoop_zero, if_pos hw]
      exact ⟨0, by rw [h0]; simp [ckWrites]⟩
    · have h0 : runLoop env records n 0 i st =
          ([], st.processed, RunOutcome.completed false) := by
        rw [runLoop_zero, if_neg hw]
      exact ⟨0, by rw [h0]; simp [ckWrites]⟩
  | succ fuel ih =>
    intro i st
    rcases hstep : runStep env records n i st with ⟨evs, st', ctl⟩
    cases ctl with
    | next =>
      rw [runLoop_succ_next env records n fuel i st evs st' hstep]
      have hck := runStep_ckWrites env records n i st
      rw [hstep] at hck
      simp only at hck
      rcases hck with hck | hck
      · obtain ⟨k, hk⟩ := ih (i + 1) st'
        refine ⟨k + 1, ?_⟩
        rw [ckWrites_append, hck, hk]
        rfl
      · exact absurd hck.2 (by simp)
    | stop oc =>
      rw [runLoop_succ_stop env records n fuel i st evs st' oc hstep]
      have hnc : ¬ oc = RunOutcome.completed true := by
        refine runStep_stop_not_completed env records n i st oc true ?_
        rw [hstep]
      have hck := runStep_ckWrites env records n i st
      rw [hstep] at hck
      simp only at hck
      rcases hck with hck | hck
      · exact ⟨1, by rw [if_neg hnc]; simpa using hck⟩
      · exact ⟨0, by rw [if_neg hnc]; rw [hck.1]; rfl⟩

/-- Helper: a sequential loop trace never begins with a fetch. -/
theorem runLoop_head_no_fetch (env : RunEnv α) (records : List (List String))
    (n : Nat) : ∀ (fuel i : Nat) (st : LoopState α) (u : String),
    ¬ (runLoop env records n fuel i st).1.head? = some (Event.fetch u) := by
  intro fuel
  cases fuel with
  | zero =>
    intro i st u
    by_cases hw : env.writeOk 0 = true
    · rw [runLoop_zero, if_pos hw]
      simp
    · rw [runLoop_zero, if_neg hw]
      simp
  | succ fuel =>
    intro i st u
    rcases hstep : runStep env records n i st with ⟨evs, st', ctl⟩
    have hhead := runStep_events_head env records n i st
    rw [hstep] at hhead
    simp only at hhead
    cases ctl with
    | next =>
      rw [runLoop_succ_next env records n fuel i st evs st' hstep]
      have hck := runStep_ckWrites env records n i st
      rw [hstep] at hck
      simp only at hck
      rcases hck with hck | hck
      · have hne : evs ≠ [] := by
          intro h0
          rw [h0] at hck
          simp [ckWrites] at hck
        cases evs with
        | nil => exact absurd rfl hne
        | cons e evs' =>
          rcases hhead with h1 | h1
          · exact List.noConfusion h1
          · simp only [List.head?_cons, Option.some.injEq] at h1
            subst h1
            simp
      · exact absurd hck.2 (by simp)
    | stop oc =>
      rw [runLoop_succ_stop env records n fuel i st evs st' oc hstep]
      simp only
      rcases hhead with h1 | h1
      · rw [h1]
        simp
      · rw [h1]
        simp

/-- Helper: whenever a sequential loop trace splits at a fetch, the most
recent checkpoint write before the fetch is exactly the index of the
record whose URL is fetched: the checkpoint durably names the unit of work
in progress before the fetch is issued. -/
theorem runLoop_fetch_last_write (env : RunEnv α) (records : List (List String))
    (n : Nat) : ∀ (fuel i : Nat) (st : LoopState α) (t1 t2 : List (Event α))
    (u : String),
    (runLoop env records n fuel i st).1 = t1 ++ Event.fetch u :: t2 →
    ∃ w, (ckWrites t1).getLast? = some w ∧
      u = env.urlOf ((records.getD w []).headD "") := by
  intro fuel
  induction fuel with
  | zero =>
    intro i st t1 t2 u h
    exfalso
    have hm : Event.fetch u ∈ (runLoop env records n 0 i st).1 := by
      rw [h]
      exact List.mem_append.mpr (Or.inr (List.mem_cons_self _ t2))
    by_cases hw : env.writeOk 0 = true
    · rw [runLoop_zero, if_pos hw] at hm
      simp at hm
    · rw [runLoop_zero, if_neg hw] at hm
      simp at hm
  | succ fuel ih =>
    intro i st t1 t2 u h
    rcases hstep : runStep env records n i st with ⟨evs, st', ctl⟩
    cases ctl with
    | stop oc =>
      rw [runLoop_succ_stop env records n fuel i st evs st' oc hstep] at h
      simp only at h
      have hdec : (runStep env records n i st).1 = t1 ++ Event.fetch u :: t2 := by
        rw [hstep]
        exact h
      obtain ⟨hck, hu⟩ := runStep_fetch_decomp env records n i st t1 t2 u hdec
      exact ⟨i, by rw [hck]; rfl, hu⟩
    | next =>
      rw [runLoop_succ_next env records n fuel i st evs st' hstep] at h
      simp only at h
      rcases List.append_eq_append_iff.mp h with ⟨a', ht1, hrest⟩ | ⟨c', hevs, hd⟩
      · obtain ⟨w, hlast, hurl⟩ := ih (i + 1) st' a' t2 u hrest
        have hne : ckWrites a' ≠ [] := by
          intro h0
          rw [h0] at hlast
          exact Option.noConfusion hlast
        refine ⟨w, ?_, hurl⟩
        rw [ht1, ckWrites_append, List.getLast?_append_of_ne_nil _ hne]
        exact hlast
      · cases c' with
        | nil =>
          exfalso
          rw [List.nil_append] at hd
          refine runLoop_head_no_fetch env records n fuel (i + 1) st' u ?_
          rw [← hd]
          rfl
        | cons e c'' =>
          rw [List.cons_append] at hd
          injection hd with hd1 hd2
          have hdec : (runStep env records n i st).1 =
              t1 ++ Event.fetch u :: c'' := by
            rw [hstep]
            simp only
            rw [hevs, ← hd1]
          obtain ⟨hck, hu⟩ := runStep_fetch_decomp env records n i st t1 c'' u hdec
          exact ⟨i, by rw [hck]; rfl, hu⟩

/-- Helper: the three possible event lists of one worker goroutine. -/
theorem workerRun_events_char (env : RunEnv α) (s : String) :
    (workerRun env s).events = [Event.fetch (env.urlOf s)] ∨
    (workerRun env s).events =
      [Event.fetch (env.urlOf s), Event.blacklistAdd s] ∨
    (workerRun env s).events = [Event.fetch (env.urlOf s), Event.sleepDay] := by
  unfold workerRun
  cases hg : env.getData (env.urlOf s) with
  | error e => exact Or.inl (by simp [hg])
  | ok r =>
    simp only [hg]
    rcases hst : (GetRawValuesFromResponse env.decode r).2 with _ | _ | _ | _ | _ <;>
      simp only [hst]
    · cases he : (ExtractDataFromValues env.parseFloat
          (GetRawValuesFromResponse env.decode r).1 25 s).2.2 <;>
        simp [he]
    · by_cases hp : env.production = true
      · rw [if_pos hp]
        simp
      · rw [if_neg hp]
        simp
    · simp [goErrorCall]
    · simp
    · simp [goErrorCall]

/-- Helper: a worker goroutine never writes the checkpoint. -/
theorem workerRun_ckWrites (env : RunEnv α) (s : String) :
    ckWrites (workerRun env s).events = [] := by
  rcases workerRun_events_char env s with h | h | h <;> rw [h] <;>
    simp [ckWrites]

/-- Helper: a worker goroutine only ever fetches its own symbol's URL. -/
theorem workerRun_fetch_only (env : RunEnv α) (s : String) (u : String)
    (hm : Event.fetch u ∈ (workerRun env s).events) : u = env.urlOf s := by
  rcases workerRun_events_char env s with h | h | h <;> rw [h] at hm <;>
    simp at hm <;> exact hm

/-- Helper: the fan-out of a batch never writes the checkpoint. -/
theorem batchWorkers_ckWrites (env : RunEnv α) :
    ∀ (syms : List String) (bl : List String),
      ckWrites (batchWorkers env bl syms).events = [] := by
  intro syms
  induction syms with
  | nil => intro bl; rfl
  | cons s rest ih =>
    intro bl
    unfold batchWorkers
    by_cases hw : (workerRun env s).panicked = true
    · rw [if_pos hw]
      exact workerRun_ckWrites env s
    · rw [if_neg hw]
      show ckWrites ((workerRun env s).events ++
        (batchWorkers env (if (workerRun env s).addedBl = true
          then AddToBlacklist bl s else bl) rest).events) = []
      rw [ckWrites_append, workerRun_ckWrites, ih]
      rfl

/-- Helper: every fetch of a batch's fan-out targets one of the batch's
symbols. -/
theorem batchWorkers_fetch (env : RunEnv α) :
    ∀ (syms : List String) (bl : List String) (u : String),
      Event.fetch u ∈ (batchWorkers env bl syms).events →
      ∃ s ∈ syms, u = env.urlOf s := by
  intro syms
  induction syms with
  | nil =>
    intro bl u hm
    simp [batchWorkers] at hm
  | cons s rest ih =>
    intro bl u hm
    unfold batchWorkers at hm
    by_cases hw : (workerRun env s).panicked = true
    · rw [if_pos hw] at hm
      exact ⟨s, List.mem_cons_self s rest, workerRun_fetch_only env s u hm⟩
    · rw [if_neg hw] at hm
      have hm' : Event.fetch u ∈ (workerRun env s).events ++
          (batchWorkers env (if (workerRun env s).addedBl = true
            then AddToBlacklist bl s else bl) rest).events := hm
      rcases List.mem_append.mp hm' with h1 | h1
      · exact ⟨s, List.mem_cons_self s rest, workerRun_fetch_only env s u h1⟩
      · obtain ⟨s', hs', hu⟩ := ih _ u h1
        exact ⟨s', List.mem_cons_of_mem s hs', hu⟩

/-- Helper: the drain loop emits only store events: no fetch, no
checkpoint write. -/
theorem drainValues_events (env : RunEnv α) :
    ∀ (vs : List (ReturnData α)) (db : List (PriceRow α)),
      (∀ u, ¬ Event.fetch u ∈ (drainValues env vs db).1) ∧
      ckWrites (drainValues env vs db).1 = [] := by
  intro vs
  induction vs with
  | nil =>
    intro db
    exact ⟨fun u h => by simp [drainValues] at h, rfl⟩
  | cons v rest ih =>
    intro db
    unfold drainValues
    by_cases hl : v.limitReached = true
    · rw [if_pos hl]
      exact ⟨fun u h => by simp at h, rfl⟩
    · rw [if_neg hl]
      refine ⟨?_, ?_⟩
      · intro u h
        have h' : Event.fetch u ∈ Event.store v.curatedData ::
            (drainValues env rest
              (StoreData env.execFail env.commitFail db v.curatedData).1).1 := h
        rcases List.mem_cons.mp h' with h1 | h1
        · exact Event.noConfusion h1
        · exact (ih _).1 u h1
      · exact (ih ((StoreData env.execFail env.commitFail db v.curatedData).1)).2

/-- Helper: one batch iteration either aborts on a failed checkpoint write
with no events, or begins with its own checkpoint write, followed by
write-free events whose fetches all target the batch's symbols, ending in
continue or a non-`completed` stop. -/
theorem runGoStep_char (env : RunEnv α) (filtered : List String) (n i : Nat)
    (bl : List String) (db : List (PriceRow α)) :
    ((runGoStep env filtered n i bl db).1 = [] ∧
      (runGoStep env filtered n i bl db).2.2 = GoCtl.stop RunOutcome.fatal) ∨
    (∃ rest, (runGoStep env filtered n i bl db).1 = Event.writeIdx i :: rest ∧
      ckWrites rest = [] ∧
      (∀ u, Event.fetch u ∈ rest →
        ∃ s ∈ (filtered.drop i).take n, u = env.urlOf s) ∧
      ((runGoStep env filtered n i bl db).2.2 = GoCtl.stop RunOutcome.panicked ∨
        (runGoStep env filtered n i bl db).2.2 = GoCtl.stop RunOutcome.limitStop ∨
        ∃ bl' db' brk,
          (runGoStep env filtered n i bl db).2.2 = GoCtl.next bl' db' brk)) := by
  unfold runGoStep
  by_cases hw : env.writeOk i = false
  · rw [if_pos hw]
    exact Or.inl ⟨rfl, rfl⟩
  · rw [if_neg hw]
    refine Or.inr ?_
    by_cases hp : (batchWorkers env bl ((filtered.drop i).take n)).panicked = true
    · rw [if_pos hp]
      refine ⟨(batchWorkers env bl ((filtered.drop i).take n)).events, rfl,
        batchWorkers_ckWrites env _ bl, ?_, Or.inl rfl⟩
      intro u hu
      exact batchWorkers_fetch env _ bl u hu
    · rw [if_neg hp]
      by_cases hlim : (drainValues env
          (batchWorkers env bl ((filtered.drop i).take n)).values db).2.2 = true
      · rw [if_pos hlim]
        refine ⟨_, rfl, ?_, ?_, Or.inr (Or.inl rfl)⟩
        · rw [ckWrites_append, batchWorkers_ckWrites env _ bl,
            (drainValues_events env _ db).2]
          rfl
        · intro u hu
          rcases List.mem_append.mp hu with h1 | h1
          · exact batchWorkers_fetch env _ bl u h1
          · exact absurd h1 ((drainValues_events env _ db).1 u)
      · rw [if_neg hlim]
        refine ⟨_, rfl, ?_, ?_, Or.inr (Or.inr ⟨_, _, _, rfl⟩)⟩
        · rw [ckWrites_append, batchWorkers_ckWrites env _ bl,
            (drainValues_events env _ db).2]
          rfl
        · intro u hu
          rcases List.mem_append.mp hu with h1 | h1
          · exact batchWorkers_fetch env _ bl u h1
          · exact absurd h1 ((drainValues_events env _ db).1 u)

/-- Helper: `goFinish` writes 0 exactly when the final write succeeds, i.e.
exactly when the outcome is `completed true`. -/
theorem goFinish_ckWrites (env : RunEnv α) (p : Nat) :
    ckWrites (α := α) (goFinish env p).1 =
      if (goFinish (α := α) env p).2.2 = RunOutcome.completed true
      then [0] else [] := by
  unfold goFinish
  by_cases hw : env.writeOk 0 = true
  · rw [if_pos hw]
    simp [ckWrites]
  · rw [if_neg hw]
    simp [ckWrites]

/-- Helper: unfolding equation of the batch loop past the end of the list. -/
theorem runGoLoop_out (env : RunEnv α) (filtered : List String) (n : Nat)
    (sleep : Bool) (fuel i p : Nat) (bl : List String) (db : List (PriceRow α))
    (h : ¬ i < filtered.length) :
    runGoLoop env filtered n sleep (fuel + 1) i p bl db = goFinish env p := by
  conv_lhs => unfold runGoLoop
  rw [if_neg h]

/-- Helper: unfolding equation of the batch loop on a stopping batch. -/
theorem runGoLoop_succ_stop (env : RunEnv α) (filtered : List String) (n : Nat)
    (sleep : Bool) (fuel i p : Nat) (bl : List String) (db : List (PriceRow α))
    (evs : List (Event α)) (padd : Nat) (oc : RunOutcome)
    (h : i < filtered.length)
    (hstep : runGoStep env filtered n i bl db = (evs, padd, GoCtl.stop oc)) :
    runGoLoop env filtered n sleep (fuel + 1) i p bl db = (evs, p + padd, oc) := by
  conv_lhs => unfold runGoLoop
  rw [if_pos h]
  simp only [hstep]

/-- Helper: unfolding equation of the batch loop on a final short batch. -/
theorem runGoLoop_succ_brk (env : RunEnv α) (filtered : List String) (n : Nat)
    (sleep : Bool) (fuel i p : Nat) (bl : List String) (db : List (PriceRow α))
    (evs : List (Event α)) (padd : Nat) (bl' : List String)
    (db' : List (PriceRow α))
    (h : i < filtered.length)
    (hstep : runGoStep env filtered n i bl db = (evs, padd, GoCtl.next bl' db' true)) :
    runGoLoop env filtered n sleep (fuel + 1) i p bl db =
      (evs ++ (goFinish (α := α) env (p + padd)).1,
        (goFinish (α := α) env (p + padd)).2) := by
  conv_lhs => unfold runGoLoop
  rw [if_pos h]
  simp only [hstep, if_true]

/-- Helper: unfolding equation of the batch loop on a full batch that
continues. -/
theorem runGoLoop_succ_cont (env : RunEnv α) (filtered : List String) (n : Nat)
    (sleep : Bool) (fuel i p : Nat) (bl : List String) (db : List (PriceRow α))
    (evs : List (Event α)) (padd : Nat) (bl' : List String)
    (db' : List (PriceRow α))
    (h : i < filtered.length)
    (hstep : runGoStep env filtered n i bl db = (evs, padd, GoCtl.next bl' db' false)) :
    runGoLoop env filtered n sleep (fuel + 1) i p bl db =
      ((evs ++ (if sleep then [Event.sleepMinute] else [])) ++
        (runGoLoop env filtered n sleep fuel (i + n) (p + padd) bl' db').1,
        (runGoLoop env filtered n sleep fuel (i + n) (p + padd) bl' db').2) := by
  conv_lhs => unfold runGoLoop
  rw [if_pos h]
  simp only [hstep, if_false, Bool.false_eq_true]

/-- Helper: the checkpoint writes of the batch loop are the batch start
indices, stepping by the batch size `n`, followed by the reset write of 0
exactly when the loop completed the whole filtered list (and the final
write succeeded). -/
theorem runGoLoop_ckWrites (env : RunEnv α) (filtered : List String) (n : Nat)
    (sleep : Bool) : ∀ (fuel i p : Nat) (bl : List String)
    (db : List (PriceRow α)),
    ∃ k, ckWrites (runGoLoop env filtered n sleep fuel i p bl db).1 =
      List.range' i k n ++
        (if (runGoLoop env filtered n sleep fuel i p bl db).2.2 =
          RunOutcome.completed true then [0] else []) := by
  intro fuel
  induction fuel with
  | zero =>
    intro i p bl db
    refine ⟨0, ?_⟩
    rw [show runGoLoop env filtered n sleep 0 i p bl db = goFinish env p from rfl]
    rw [List.range', List.nil_append]
    exact goFinish_ckWrites env p
  | succ fuel ih =>
    intro i p bl db
    by_cases hin : i < filtered.length
    · rcases hstep : runGoStep env filtered n i bl db with ⟨evs, padd, ctl⟩
      have hchar := runGoStep_char env filtered n i bl db
      rw [hstep] at hchar
      simp only at hchar
      cases ctl with
      | stop oc =>
        rw [runGoLoop_succ_stop env filtered n sleep fuel i p bl db evs padd oc
          hin hstep]
        simp only
        rcases hchar with ⟨hevs, hctl⟩ | ⟨rest, hevs, hckr, _, hctl⟩
        · have hoc : oc = RunOutcome.fatal := by injection hctl
          refine ⟨0, ?_⟩
          rw [hevs, hoc]
          simp [ckWrites]
        · rcases hctl with h1 | h1 | ⟨bl', db', brk, h1⟩
          · have hoc : oc = RunOutcome.panicked := by injection h1
            refine ⟨1, ?_⟩
            rw [hevs, hoc]
            have : ckWrites (Event.writeIdx i :: rest) = i :: ckWrites rest := rfl
            rw [this, hckr]
            simp [List.range']
          · have hoc : oc = RunOutcome.limitStop := by injection h1
            refine ⟨1, ?_⟩
            rw [hevs, hoc]
            have : ckWrites (Event.writeIdx i :: rest) = i :: ckWrites rest := rfl
            rw [this, hckr]
            simp [List.range']
          · exact absurd h1 (by simp)
      | next bl' db' brk =>
        rcases hchar with ⟨_, hctl⟩ | ⟨rest, hevs, hckr, _, _⟩
        · exact absurd hctl (by simp)
        · have hevsck : ckWrites evs = [i] := by
            rw [hevs]
            have : ckWrites (Event.writeIdx i :: rest) = i :: ckWrites rest := rfl
            rw [this, hckr]
          cases brk with
          | true =>
            rw [runGoLoop_succ_brk env filtered n sleep fuel i p bl db evs padd
              bl' db' hin hstep]
            simp only
            refine ⟨1, ?_⟩
            rw [ckWrites_append, hevsck, goFinish_ckWrites]
            simp [List.range']
          | false =>
            rw [runGoLoop_succ_cont env filtered n sleep fuel i p bl db evs padd
              bl' db' hin hstep]
            simp only
            obtain ⟨k, hk⟩ := ih (i + n) (p + padd) bl' db'
            refine ⟨k + 1, ?_⟩
            have hsl : ckWrites (α := α)
                (if sleep = true then [Event.sleepMinute] else []) = [] := by
              cases sleep <;> rfl
            rw [ckWrites_append, ckWrites_append, hevsck, hsl, hk]
            have hr : List.range' i (k + 1) n = i :: List.range' (i + n) k n := rfl
            rw [hr]
            simp
    · rw [runGoLoop_out env filtered n sleep fuel i p bl db hin]
      refine ⟨0, ?_⟩
      rw [List.range', List.nil_append]
      exact goFinish_ckWrites env p

/-- C5: the checkpoint protocol of both orchestrators.  (1) In a sequential
run the sequence of checkpoint writes is the consecutive indices from the
entry index — monotonically non-decreasing — with a final reset write of 0
appended exactly when the run completed the full pass (and never on an
early limit-reached return, whose outcome is `limitStop`, or on a fatal or
panicking exit).  (2) Wherever a sequential trace splits at a fetch, the
most recent checkpoint written before it is exactly the index of the
record being fetched — the checkpoint durably names the unit of work
before the fetch begins.  (3) In a concurrent run (with a positive batch
size; `n = 0` never terminates in the source) the checkpoint writes are
the batch start indices stepping by the batch size, with the reset write
of 0 appended exactly on completion of the full pass.  (4) In every batch,
all events — in particular every fetch, which targets only the batch's own
symbols — come after the batch's own checkpoint write, which is the first
event of the batch. -/
theorem c5_checkpoint_protocol :
    (∀ (α : Type) (env : RunEnv α) (records : List (List String)) (n index : Nat)
      (bl : List String) (db : List (PriceRow α)),
      ∃ k, ckWrites (Run env records n index bl db).1 =
        List.range' index k ++
          (if (Run env records n index bl db).2.2 = RunOutcome.completed true
            then [0] else [])) ∧
    (∀ (α : Type) (env : RunEnv α) (records : List (List String)) (n index : Nat)
      (bl : List String) (db : List (PriceRow α)) (t1 t2 : List (Event α))
      (u : String),
      (Run env records n index bl db).1 = t1 ++ Event.fetch u :: t2 →
      ∃ w, (ckWrites t1).getLast? = some w ∧
        u = env.urlOf ((records.getD w []).headD "")) ∧
    (∀ (α : Type) (env : RunEnv α) (records : List (List String)) (n : Nat)
      (sleep : Bool) (index : Nat) (bl : List String) (db : List (PriceRow α)),
      0 < n →
      ∃ k, ckWrites (RunGoRoutines env records n sleep index bl db).1 =
        List.range' index k n ++
          (if (RunGoRoutines env records n sleep index bl db).2.2 =
            RunOutcome.completed true then [0] else [])) ∧
    (∀ (α : Type) (env : RunEnv α) (filtered : List String) (n i : Nat)
      (bl : List String) (db : List (PriceRow α)) (u : String),
      Event.fetch u ∈ (runGoStep env filtered n i bl db).1 →
      (runGoStep env filtered n i bl db).1.head? = some (Event.writeIdx i) ∧
        ∃ s ∈ (filtered.drop i).take n, u = env.urlOf s) := by
  refine ⟨?_, ?_, ?_, ?_⟩
  · intro α env records n index bl db
    exact runLoop_ckWrites env records n (records.length - index) index ⟨0, bl, db⟩
  · intro α env records n index bl db t1 t2 u h
    exact runLoop_fetch_last_write env records n (records.length - index) index
      ⟨0, bl, db⟩ t1 t2 u h
  · intro α env records n sleep index bl db hn
    by_cases hemp : records.isEmpty = true
    · refine ⟨0, ?_⟩
      unfold RunGoRoutines
      rw [if_pos hemp]
      simp [ckWrites]
    · unfold RunGoRoutines
      rw [if_neg hemp]
      exact runGoLoop_ckWrites env (filterRecords env records bl) n sleep
        ((filterRecords env records bl).length - index + 1) index 0 bl db
  · intro α env filtered n i bl db u hm
    rcases runGoStep_char env filtered n i bl db with ⟨hevs, _⟩ |
      ⟨rest, hevs, _, hfetch, _⟩
    · rw [hevs] at hm
      simp at hm
    · rw [hevs] at hm ⊢
      refine ⟨rfl, ?_⟩
      rcases List.mem_cons.mp hm with h1 | h1
      · exact absurd h1 (by simp)
      · exact hfetch u h1

/-- Witness for C5: a concrete fetch decomposition in a sequential run and
a concrete concurrent run with batch size 1. -/
theorem c5_checkpoint_protocol_witness :
    (∃ w, (ckWrites (α := Unit)
        [Event.writeIdx 0, Event.writeIdx 1]).getLast? = some w ∧
      "https://api/AAA" = envLimitProd.urlOf ((records3.getD w []).headD "")) ∧
    (∃ k, ckWrites (RunGoRoutines envLimitProd records3 1 true 0 [] []).1 =
      List.range' 0 k 1 ++
        (if (RunGoRoutines envLimitProd records3 1 true 0 [] []).2.2 =
          RunOutcome.completed true then [0] else [])) := by
  constructor
  · exact c5_checkpoint_protocol.2.1 Unit envLimitProd records3 5 0 [] []
      [Event.writeIdx 0, Event.writeIdx 1] [Event.sleepDay, Event.writeIdx 2,
        Event.fetch "https://api/BBB", Event.sleepDay, Event.writeIdx 0]
      "https://api/AAA" (by decide)
  · exact c5_checkpoint_protocol.2.2.1 Unit envLimitProd records3 1 true 0 [] []
      (by decide)

/-- Helper: batch steps preserve the number of workers. -/
theorem bstep_ws_length (c c' : BCfg) (e : BEv) (h : BStep c e c') :
    c'.ws.length = c.ws.length := by
  cases h <;> simp

/-- Helper: batch steps preserve the invariant "once the channel is closed
every worker has finished, and the main loop exits only after the close". -/
theorem bstep_inv (c c' : BCfg) (e : BEv) (h : BStep c e c')
    (h1 : c.closed = true → ∀ w ∈ c.ws, w = none)
    (h2 : c.exited = true → c.closed = true) :
    (c'.closed = true → ∀ w ∈ c'.ws, w = none) ∧
      (c'.exited = true → c'.closed = true) := by
  cases h with
  | stepBlacklist i s rest hi =>
    refine ⟨?_, h2⟩
    intro hcl
    exact absurd (h1 hcl _ (List.get?_mem hi)) (by simp)
  | stepSend i v rest hi =>
    refine ⟨?_, h2⟩
    intro hcl
    exact absurd (h1 hcl _ (List.get?_mem hi)) (by simp)
  | stepFinish i hi =>
    refine ⟨?_, h2⟩
    intro hcl
    exact absurd (h1 hcl _ (List.get?_mem hi)) (by simp)
  | stepClose hall hcl => exact ⟨fun _ => hall, fun _ => rfl⟩
  | stepRecv v rest hch hex => exact ⟨h1, h2⟩
  | stepExit hcl hch hex => exact ⟨h1, fun _ => hcl⟩

/-- Helper: a single step makes a worker slot `none` only by a finish
event. -/
theorem bstep_ws_none (c c' : BCfg) (e : BEv) (h : BStep c e c') (i : Nat)
    (hn : c'.ws.get? i = some none) :
    c.ws.get? i = some none ∨ e = BEv.wfinish i := by
  cases h with
  | stepBlacklist j s rest hj =>
    by_cases hij : i = j
    · subst hij
      have hlen : i < c.ws.length := by
        by_contra hge
        rw [List.get?_eq_none.mpr (by omega)] at hj
        exact Option.noConfusion hj
      rw [show (⟨c.ws.set i (some rest), c.chan, c.closed, c.exited⟩ :
          BCfg).ws = c.ws.set i (some rest) from rfl] at hn
      rw [List.get?_eq_getElem?] at hn
      simp [hlen] at hn
    · refine Or.inl ?_
      rw [show (⟨c.ws.set j (some rest), c.chan, c.closed, c.exited⟩ :
          BCfg).ws = c.ws.set j (some rest) from rfl] at hn
      rw [List.get?_eq_getElem?, List.getElem?_set_ne (by omega : j ≠ i)] at hn
      rw [List.get?_eq_getElem?]
      exact hn
  | stepSend j v rest hj =>
    by_cases hij : i = j
    · subst hij
      have hlen : i < c.ws.length := by
        by_contra hge
        rw [List.get?_eq_none.mpr (by omega)] at hj
        exact Option.noConfusion hj
      rw [show (⟨c.ws.set i (some rest), c.chan ++ [v], c.closed, c.exited⟩ :
          BCfg).ws = c.ws.set i (some rest) from rfl] at hn
      rw [List.get?_eq_getElem?] at hn
      simp [hlen] at hn
    · refine Or.inl ?_
      rw [show (⟨c.ws.set j (some rest), c.chan ++ [v], c.closed, c.exited⟩ :
          BCfg).ws = c.ws.set j (some rest) from rfl] at hn
      rw [List.get?_eq_getElem?, List.getElem?_set_ne (by omega : j ≠ i)] at hn
      rw [List.get?_eq_getElem?]
      exact hn
  | stepFinish j hj =>
    by_cases hij : i = j
    · subst hij
      exact Or.inr rfl
    · refine Or.inl ?_
      rw [show (⟨c.ws.set j none, c.chan, c.closed, c.exited⟩ :
          BCfg).ws = c.ws.set j none from rfl] at hn
      rw [List.get?_eq_getElem?, List.getElem?_set_ne (by omega : j ≠ i)] at hn
      rw [List.get?_eq_getElem?]
      exact hn
  | stepClose hall hcl => exact Or.inl hn
  | stepRecv v rest hch hex => exact Or.inl hn
  | stepExit hcl hch hex => exact Or.inl hn

/-- Helper: along a batch trace, a finished worker slot traces back to a
finish event (or was already finished). -/
theorem bsteps_ws_none (c : BCfg) (tr : List BEv) (c' : BCfg)
    (h : BSteps c tr c') :
    (c.closed = true → ∀ w ∈ c.ws, w = none) →
    (c.exited = true → c.closed = true) →
    ∀ i, c'.ws.get? i = some none →
      c.ws.get? i = some none ∨ BEv.wfinish i ∈ tr := by
  induction h with
  | done c => exact fun _ _ i hi => Or.inl hi
  | step c c1 c2 e tr h1 h2 ih =>
    intro ha hb i hi
    obtain ⟨ha', hb'⟩ := bstep_inv c c1 e h1 ha hb
    rcases ih ha' hb' i hi with hc | hc
    · rcases bstep_ws_none c c1 e h1 i hc with hd | hd
      · exact Or.inl hd
      · exact Or.inr (by rw [hd]; exact List.mem_cons_self _ _)
    · exact Or.inr (List.mem_cons_of_mem e hc)

/-- Helper: invariant closure along a batch trace. -/
theorem bsteps_inv (c : BCfg) (tr : List BEv) (c' : BCfg) (h : BSteps c tr c')
    (ha : c.closed = true → ∀ w ∈ c.ws, w = none)
    (hb : c.exited = true → c.closed = true) :
    (c'.closed = true → ∀ w ∈ c'.ws, w = none) ∧
      (c'.exited = true → c'.closed = true) := by
  induction h with
  | done c => exact ⟨ha, hb⟩
  | step c c1 c2 e tr h1 h2 ih =>
    obtain ⟨ha', hb'⟩ := bstep_inv c c1 e h1 ha hb
    exact ih ha' hb'

/-- Helper: worker count is preserved along a batch trace. -/
theorem bsteps_ws_length (c : BCfg) (tr : List BEv) (c' : BCfg)
    (h : BSteps c tr c') : c'.ws.length = c.ws.length := by
  induction h with
  | done c => rfl
  | step c c1 c2 e tr h1 h2 ih => rw [ih, bstep_ws_length c c1 e h1]

/-- Helper: a batch trace splits at any of its events. -/
theorem bsteps_split (t1 : List BEv) :
    ∀ (c : BCfg) (e : BEv) (t2 : List BEv) (c2 : BCfg),
    BSteps c (t1 ++ e :: t2) c2 →
    ∃ cm cm', BSteps c t1 cm ∧ BStep cm e cm' ∧ BSteps cm' t2 c2 := by
  induction t1 with
  | nil =>
    intro c e t2 c2 h
    cases h with
    | step _ c1 _ _ _ h1 h2 => exact ⟨c, c1, BSteps.done c, h1, h2⟩
  | cons e1 t1' ih =>
    intro c e t2 c2 h
    cases h with
    | step _ c1 _ _ _ h1 h2 =>
      obtain ⟨cm, cm', hs1, hs2, hs3⟩ := ih c1 e t2 c2 h2
      exact ⟨cm, cm', BSteps.step c c1 cm e1 t1' h1 hs1, hs2, hs3⟩

/-- Helper: once the channel is closed, every worker's finish event is
already in the trace. -/
theorem closed_all_finished (scripts : List (List BAct)) (t1 : List BEv)
    (cm : BCfg) (h : BSteps (batchInit scripts) t1 cm)
    (hcl : cm.closed = true) :
    ∀ i, i < scripts.length → BEv.wfinish i ∈ t1 := by
  intro i hi
  have hinv := bsteps_inv (batchInit scripts) t1 cm h
    (by intro hc; exact absurd hc (by simp [batchInit]))
    (by intro hc; exact absurd hc (by simp [batchInit]))
  have hlen : cm.ws.length = scripts.length := by
    rw [bsteps_ws_length (batchInit scripts) t1 cm h]
    simp [batchInit]
  have hget : ∃ w, cm.ws.get? i = some w := by
    rw [List.get?_eq_getElem?]
    have : i < cm.ws.length := by omega
    simp [List.getElem?_eq_getElem this]
  obtain ⟨w, hw⟩ := hget
  have hwn : w = none := hinv.1 hcl w (List.get?_mem hw)
  subst hwn
  rcases bsteps_ws_none (batchInit scripts) t1 cm h
    (by intro hc; exact absurd hc (by simp [batchInit]))
    (by intro hc; exact absurd hc (by simp [batchInit])) i hw with hc | hc
  · exfalso
    have : (scripts.map some).get? i = some none := hc
    rw [List.get?_eq_getElem?, List.getElem?_map, ← List.get?_eq_getElem?] at this
    cases hsc : scripts.get? i with
    | none => rw [hsc] at this; exact Option.noConfusion this
    | some x =>
      rw [hsc] at this
      simp at this
  · exact hc

/-- C2 (amended): in the concurrent orchestrator's batch, the fan-in
barrier guards the **loop exit** — the main goroutine's drain loop exits
(and hence the `len < n` break check and the pacing sleep run) only after
every worker task of the batch has finished, and in every schedule all
finish events precede the loop-exit event; results, however, may be
persisted as they arrive, while other tasks of the batch are still
running, and workers write blacklist rows to the store from their own
goroutines (the price-table writes all come from the drain loop). -/
theorem c2_batch_exit_barrier (scripts : List (List BAct)) (tr : List BEv)
    (c : BCfg) (h : BSteps (batchInit scripts) tr c) :
    (c.exited = true → ∀ i, i < scripts.length → BEv.wfinish i ∈ tr) ∧
    (∀ t1 t2, tr = t1 ++ BEv.exitLoop :: t2 →
      ∀ i, i < scripts.length → BEv.wfinish i ∈ t1) := by
  constructor
  · intro hex i hi
    have hinv := bsteps_inv (batchInit scripts) tr c h
      (by intro hc; exact absurd hc (by simp [batchInit]))
      (by intro hc; exact absurd hc (by simp [batchInit]))
    exact closed_all_finished scripts tr c h (hinv.2 hex) i hi
  · intro t1 t2 hdec i hi
    rw [hdec] at h
    obtain ⟨cm, cm', hs1, hs2, _⟩ := bsteps_split t1 (batchInit scripts)
      BEv.exitLoop t2 c h
    cases hs2 with
    | stepExit hcl hch hex => exact closed_all_finished scripts t1 cm hs1 hcl i hi

/-- Helper: the concrete schedule of `cexTrace` is a legal interleaving. -/
theorem cex_schedule : BSteps (batchInit cexScripts) cexTrace cexFinal := by
  refine BSteps.step _ _ _ _ _ (BStep.stepSend _ 0 0 [] (by decide)) ?_
  refine BSteps.step _ _ _ _ _ (BStep.stepRecv _ 0 [] rfl rfl) ?_
  refine BSteps.step _ _ _ _ _ (BStep.stepSend _ 1 1 [] (by decide)) ?_
  refine BSteps.step _ _ _ _ _ (BStep.stepFinish _ 0 (by decide)) ?_
  refine BSteps.step _ _ _ _ _ (BStep.stepFinish _ 1 (by decide)) ?_
  refine BSteps.step _ _ _ _ _ (BStep.stepClose _ (by decide) rfl) ?_
  refine BSteps.step _ _ _ _ _ (BStep.stepRecv _ 1 [] rfl rfl) ?_
  refine BSteps.step _ _ _ _ _ (BStep.stepExit _ rfl rfl rfl) ?_
  exact BSteps.done _

/-- C2 counterexample: the claim asserts that in every schedule all of the
batch's tasks complete before any of the batch's results is written to the
store.  The schedule `cexTrace` is a legal interleaving of the batch
primitives (buffered channel sends, `wg.Wait`-then-close, the draining
range loop that stores each received value), yet it stores worker 0's
result (`storeRecv 0`) before either worker has finished — worker 1 has
not even sent its value.  The loop-exit event does come last, after all
finishes. -/
theorem c2_counterexample :
    BSteps (batchInit cexScripts) cexTrace cexFinal ∧
    cexTrace.indexOf (BEv.storeRecv 0) < cexTrace.indexOf (BEv.wfinish 1) ∧
    cexTrace.indexOf (BEv.storeRecv 0) < cexTrace.indexOf (BEv.wfinish 0) ∧
    BEv.exitLoop ∈ cexTrace :=
  ⟨cex_schedule, by decide, by decide, by decide⟩

/-- Witness for C2 (amended) at the concrete schedule. -/
theorem c2_batch_exit_barrier_witness :
    BEv.wfinish 0 ∈ cexTrace ∧ BEv.wfinish 1 ∈ cexTrace :=
  ⟨(c2_batch_exit_barrier cexScripts cexTrace cexFinal cex_schedule).1 rfl 0
      (by decide),
    (c2_batch_exit_barrier cexScripts cexTrace cexFinal cex_schedule).1 rfl 1
      (by decide)⟩

end Collector
